import Mathlib

/-!
# Verification of the fedimint core against its specification

Shallow embedding of the three source files of the repository:

* `fedimint-core/src/query.rs` — the client-side query strategies
  (`ErrorStrategy`, `FilterMap`, `FilterMapThreshold`, `ThresholdConsensus`,
  `UnionResponses`, `UnionResponsesSingle`, `AllOrDeadline`) and the core API
  version discovery (`discover_common_core_api_version`).
* `modules/fedimint-mint-server/src/lib.rs` — the mint server module
  (`process_input`, `process_output`, `audit`, backup handling).
* `minimint/src/consensus.rs` — the legacy `PartialSignatureKey` encoding.

Conventions of the embedding:

* `BTreeMap`s and `HashMap`s become association lists (`List (κ × β)`), with
  `assocInsert` for the overwriting `insert` and `lookupAssoc` for `get`;
  `BTreeSet`s / `HashSet`s become `List`s extended only with fresh elements.
  Statements never depend on the iteration order the Rust containers choose.
* Rust `assert!`/`expect` panics are modelled by `Option`: a function that can
  panic returns `none` exactly where the Rust code would panic.
* Machine integers (`u64` msat amounts, `u32` version numbers) are modelled by
  `Nat`; the byte-level claims state the `< 2 ^ 64` / `< 2 ^ 16` bounds
  explicitly where they matter.
* Cryptographic material (keys, signatures, blind nonces) is opaque to the
  code under verification: it only ever compares, verifies or signs through
  the key tables loaded at construction, so those operations are type
  parameters and function-valued fields of the `Mint` structure.
-/

namespace Fedimint

/-! ## Generic association-list helpers (BTreeMap / HashMap semantics) -/

/-- Overwriting insert, as `BTreeMap::insert` / `HashMap::insert`: replaces the
value at an existing key, otherwise adds the binding. -/
def assocInsert {κ β : Type} [DecidableEq κ] (k : κ) (v : β) :
    List (κ × β) → List (κ × β)
  | [] => [(k, v)]
  | (k', v') :: rest =>
    if k = k' then (k, v) :: rest else (k', v') :: assocInsert k v rest

/-- `BTreeMap::get`. -/
def lookupAssoc {κ β : Type} [DecidableEq κ] (k : κ) (l : List (κ × β)) :
    Option β :=
  (l.find? (fun kv => kv.1 = k)).map Prod.snd

/-- Minimum of a list of naturals, `Iterator::min`. -/
def minList : List Nat → Option Nat
  | [] => none
  | x :: rest =>
    match minList rest with
    | none => some x
    | some m => some (min x m)

theorem minList_eq_none {l : List Nat} : minList l = none ↔ l = [] := by
  cases l with
  | nil => simp [minList]
  | cons x rest =>
    simp only [minList]
    split <;> simp

theorem minList_mem {l : List Nat} {m : Nat} (h : minList l = some m) : m ∈ l := by
  induction l generalizing m with
  | nil => simp [minList] at h
  | cons x rest ih =>
    simp only [minList] at h
    split at h
    · simp only [Option.some.injEq] at h
      simp [← h]
    · next m' heq =>
      simp only [Option.some.injEq] at h
      rcases le_total x m' with hle | hle
      · have hm : m = x := by rw [← h]; exact min_eq_left hle
        simp [hm]
      · have hm : m = m' := by rw [← h]; exact min_eq_right hle
        exact hm ▸ List.mem_cons_of_mem x (ih heq)

theorem minList_le {l : List Nat} {m : Nat} (h : minList l = some m) :
    ∀ x ∈ l, m ≤ x := by
  induction l generalizing m with
  | nil => simp
  | cons y rest ih =>
    intro x hx
    simp only [minList] at h
    split at h
    · next heq =>
      have hrest : rest = [] := minList_eq_none.mp heq
      subst hrest
      simp only [Option.some.injEq] at h
      rcases List.mem_singleton.mp hx with rfl
      omega
    · next m' heq =>
      simp only [Option.some.injEq] at h
      rcases List.mem_cons.mp hx with rfl | hx'
      · rw [← h]; exact min_le_left _ _
      · calc m ≤ m' := by rw [← h]; exact min_le_right _ _
          _ ≤ x := ih heq x hx'

theorem minList_isSome {l : List Nat} (h : l ≠ []) : (minList l).isSome := by
  cases l with
  | nil => exact absurd rfl h
  | cons x rest =>
    simp only [minList]
    cases minList rest <;> simp

/-! ## Query strategies (`fedimint-core/src/query.rs`) -/

/-- `PeerId` is a small integer. -/
abbrev PeerId := Nat

/-- `PeerError`: the three error variants a peer response can carry. -/
inductive PeerError where
  | invalidResponse (msg : String)
  | serverError (msg : String)
  | transport (msg : String)
deriving DecidableEq

/-- `PeerResult<R>` -/
abbrev PeerResult (R : Type) := Except PeerError R

/-- `QueryStep<R>`: result of one strategy step.  `cont` is Rust's `Continue`.
The `failure` payload is the drained peer→error map; the concatenated
human-readable diagnostic string (`general`) is not modelled. -/
inductive QueryStep (R : Type) where
  | retry (peers : List PeerId)
  | cont
  | success (r : R)
  | failure (peers : List (PeerId × PeerError))
deriving DecidableEq

def QueryStep.isFailure {R : Type} : QueryStep R → Bool
  | .failure _ => true
  | _ => false

def QueryStep.isSuccess {R : Type} : QueryStep R → Bool
  | .success _ => true
  | _ => false

/-- `max_evil`: `f = (total_peers - 1) / 3`. -/
def maxEvil (totalPeers : Nat) : Nat := (totalPeers - 1) / 3

/-- `ErrorStrategy`: accumulated peer errors plus the failure threshold. -/
structure ErrorStrategy where
  errors : List (PeerId × PeerError)
  threshold : Nat
deriving DecidableEq

/-- `ErrorStrategy::new` (the `assert!(threshold > 0)` is recorded where
theorems need it). -/
def ErrorStrategy.new (threshold : Nat) : ErrorStrategy := ⟨[], threshold⟩

/-- `ErrorStrategy::process`.  The Rust code asserts the peer was not already
present (`none` = panic), appends the error, and fails with the drained map
once the count reaches the threshold. -/
def ErrorStrategy.process {R : Type} (st : ErrorStrategy) (peer : PeerId)
    (e : PeerError) : Option (QueryStep R × ErrorStrategy) :=
  if peer ∈ st.errors.map Prod.fst then none
  else
    let errors := st.errors ++ [(peer, e)]
    if errors.length = st.threshold then
      some (.failure errors, { st with errors := [] })
    else
      some (.cont, { st with errors := errors })

/-- `FilterMap<R, T>` -/
structure FilterMap (R T : Type) where
  filterMap : R → Except String T
  errorStrategy : ErrorStrategy

def FilterMap.new {R T : Type} (f : R → Except String T) (totalPeers : Nat) :
    FilterMap R T :=
  ⟨f, ErrorStrategy.new (maxEvil totalPeers + 1)⟩

def FilterMap.process {R T : Type} (st : FilterMap R T) (peer : PeerId)
    (result : PeerResult R) : Option (QueryStep T × FilterMap R T) :=
  match result with
  | .ok response =>
    match st.filterMap response with
    | .ok value => some (.success value, st)
    | .error msg =>
      (st.errorStrategy.process peer (.invalidResponse msg)).map
        (fun x => (x.1, { st with errorStrategy := x.2 }))
  | .error e =>
    (st.errorStrategy.process peer e).map
      (fun x => (x.1, { st with errorStrategy := x.2 }))

/-- `FilterMapThreshold<R, T>` -/
structure FilterMapThreshold (R T : Type) where
  filterMap : PeerId → R → Except String T
  errorStrategy : ErrorStrategy
  filteredResponses : List (PeerId × T)
  threshold : Nat

def FilterMapThreshold.new {R T : Type} (verifier : PeerId → R → Except String T)
    (totalPeers : Nat) : FilterMapThreshold R T :=
  ⟨verifier, ErrorStrategy.new (maxEvil totalPeers + 1), [],
    totalPeers - maxEvil totalPeers⟩

def FilterMapThreshold.process {R T : Type} (st : FilterMapThreshold R T)
    (peer : PeerId) (result : PeerResult R) :
    Option (QueryStep (List (PeerId × T)) × FilterMapThreshold R T) :=
  match result with
  | .ok response =>
    match st.filterMap peer response with
    | .ok value =>
      let filteredResponses := assocInsert peer value st.filteredResponses
      if filteredResponses.length = st.threshold then
        some (.success filteredResponses, { st with filteredResponses := [] })
      else
        some (.cont, { st with filteredResponses := filteredResponses })
    | .error msg =>
      (st.errorStrategy.process peer (.invalidResponse msg)).map
        (fun x => (x.1, { st with errorStrategy := x.2 }))
  | .error e =>
    (st.errorStrategy.process peer e).map
      (fun x => (x.1, { st with errorStrategy := x.2 }))

/-- Occurrences of a value in a list (used for response counting). -/
def countVal {R : Type} [DecidableEq R] (v : R) (l : List R) : Nat :=
  l.countP (fun x => x = v)

/-- `ThresholdConsensus<R>` -/
structure ThresholdConsensus (R : Type) where
  errorStrategy : ErrorStrategy
  responses : List (PeerId × R)
  retry : List PeerId
  threshold : Nat

def ThresholdConsensus.new (R : Type) (totalPeers : Nat) : ThresholdConsensus R :=
  ⟨ErrorStrategy.new (maxEvil totalPeers + 1), [], [],
    totalPeers - maxEvil totalPeers⟩

/-- `ThresholdConsensus::get_most_common_response`: a value of maximal
multiplicity among the current responses (`Iterator::max_by_key` keeps the last
maximal element; which element wins a tie is explicitly unspecified). -/
def getMostCommonResponse {R : Type} [DecidableEq R] (l : List R) : Option R :=
  l.foldl
    (fun acc r =>
      match acc with
      | none => some r
      | some b => if countVal b l ≤ countVal r l then some r else some b)
    none

/-- `ThresholdConsensus::process`.  On `Ok` the response is recorded, the peer
is added to the retry set (`none` = the Rust assert's panic if it was already
there), `Success` fires once the most common response reaches the threshold,
and a full retry set is drained into `Retry`.  Errors go to the shared
`ErrorStrategy`. -/
def ThresholdConsensus.process {R : Type} [DecidableEq R]
    (st : ThresholdConsensus R) (peer : PeerId) (result : PeerResult R) :
    Option (QueryStep R × ThresholdConsensus R) :=
  match result with
  | .ok response =>
    if peer ∈ st.retry then none
    else
      let responses := assocInsert peer response st.responses
      let retry := st.retry ++ [peer]
      match getMostCommonResponse (responses.map Prod.snd) with
      | some mc =>
        if st.threshold ≤ countVal mc (responses.map Prod.snd) then
          some (.success mc, { st with responses := responses, retry := retry })
        else if retry.length = st.threshold then
          some (.retry retry, { st with responses := responses, retry := [] })
        else
          some (.cont, { st with responses := responses, retry := retry })
      | none =>
        if retry.length = st.threshold then
          some (.retry retry, { st with responses := responses, retry := [] })
        else
          some (.cont, { st with responses := responses, retry := retry })
  | .error e =>
    (st.errorStrategy.process peer e).map
      (fun x => (x.1, { st with errorStrategy := x.2 }))

/-- Insertion-ordered deduplicating push, the `if !union.contains { push }`
loop body of the two union strategies. -/
def unionPush {R : Type} [DecidableEq R] (u : List R) (r : R) : List R :=
  if r ∈ u then u else u ++ [r]

/-- `UnionResponses<R>` (responders send `Vec<R>`). -/
structure UnionResponses (R : Type) where
  errorStrategy : ErrorStrategy
  responses : List PeerId
  union : List R
  threshold : Nat

def UnionResponses.new (R : Type) (totalPeers : Nat) : UnionResponses R :=
  ⟨ErrorStrategy.new (maxEvil totalPeers + 1), [], [],
    totalPeers - maxEvil totalPeers⟩

def UnionResponses.process {R : Type} [DecidableEq R] (st : UnionResponses R)
    (peer : PeerId) (result : PeerResult (List R)) :
    Option (QueryStep (List R) × UnionResponses R) :=
  match result with
  | .ok rs =>
    let union := rs.foldl unionPush st.union
    if peer ∈ st.responses then none
    else
      let responses := st.responses ++ [peer]
      if responses.length = st.threshold then
        some (.success union, { st with responses := responses, union := [] })
      else
        some (.cont, { st with responses := responses, union := union })
  | .error e =>
    (st.errorStrategy.process peer e).map
      (fun x => (x.1, { st with errorStrategy := x.2 }))

/-- `UnionResponsesSingle<R>` (responders send a single `R`). -/
structure UnionResponsesSingle (R : Type) where
  errorStrategy : ErrorStrategy
  responses : List PeerId
  union : List R
  threshold : Nat

def UnionResponsesSingle.new (R : Type) (totalPeers : Nat) :
    UnionResponsesSingle R :=
  ⟨ErrorStrategy.new (maxEvil totalPeers + 1), [], [],
    totalPeers - maxEvil totalPeers⟩

def UnionResponsesSingle.process {R : Type} [DecidableEq R]
    (st : UnionResponsesSingle R) (peer : PeerId) (result : PeerResult R) :
    Option (QueryStep (List R) × UnionResponsesSingle R) :=
  match result with
  | .ok r =>
    let union := unionPush st.union r
    if peer ∈ st.responses then none
    else
      let responses := st.responses ++ [peer]
      if responses.length = st.threshold then
        some (.success union, { st with responses := responses, union := [] })
      else
        some (.cont, { st with responses := responses, union := union })
  | .error e =>
    (st.errorStrategy.process peer e).map
      (fun x => (x.1, { st with errorStrategy := x.2 }))

/-- `AllOrDeadline<R>`.  Time is explicit: `SystemTime` becomes a `Nat` and
the driver's clock value `now` is an argument of `process`. -/
structure AllOrDeadline (R : Type) where
  deadline : Nat
  numPeers : Nat
  responses : List (PeerId × R)
deriving DecidableEq

def AllOrDeadline.new (R : Type) (numPeers deadline : Nat) : AllOrDeadline R :=
  ⟨deadline, numPeers, []⟩

/-- `AllOrDeadline::process`: success on a full map or a passed deadline;
a peer error before the deadline asks to retry exactly that peer. -/
def AllOrDeadline.process {R : Type} (st : AllOrDeadline R) (now : Nat)
    (peer : PeerId) (result : PeerResult R) :
    Option (QueryStep (List (PeerId × R)) × AllOrDeadline R) :=
  match result with
  | .ok response =>
    if peer ∈ st.responses.map Prod.fst then none
    else
      let responses := st.responses ++ [(peer, response)]
      if responses.length = st.numPeers ∨ st.deadline ≤ now then
        some (.success responses, { st with responses := [] })
      else
        some (.cont, { st with responses := responses })
  | .error _ =>
    if st.deadline ≤ now then
      some (.success st.responses, { st with responses := [] })
    else
      some (.retry [peer], st)

/-- Feed a list of per-peer results through a strategy's `process`, collecting
the emitted steps; `none` if any step panics. -/
def runStrategy {S IR OR : Type}
    (step : S → PeerId → PeerResult IR → Option (QueryStep OR × S)) :
    S → List (PeerId × PeerResult IR) → Option (List (QueryStep OR) × S)
  | s, [] => some ([], s)
  | s, (p, r) :: rest =>
    (step s p r).bind fun x =>
      (runStrategy step x.2 rest).map fun y => (x.1 :: y.1, y.2)

/-! ## Core API version discovery (`fedimint-core/src/query.rs`) -/

/-- `ApiVersion { major: u32, minor: u32 }`. -/
structure ApiVersion where
  major : Nat
  minor : Nat
deriving DecidableEq

/-- `CoreConsensusVersion`. -/
structure CoreConsensusVersion where
  major : Nat
  minor : Nat
deriving DecidableEq

/-- `SupportedCoreApiVersions`: the consensus version plus the supported API
versions (`MultiApiVersion`, one entry per major). -/
structure SupportedCoreApiVersions where
  coreConsensus : CoreConsensusVersion
  api : List ApiVersion
deriving DecidableEq

/-- Modelled from the spec: `SupportedCoreApiVersions::get_minor_api_version`
lives in `fedimint-core/src/module/mod.rs`, which is not among the sources.
Per the spec, version sets are "keyed by a consensus version tuple used to
filter compatibility" and "a peer supporting major M, minor m is compatible
with any client requesting the same major and minor ≤ m"; the in-source
sanity test (`discover_common_core_api_version_sanity`) fixes the filter: a
peer whose core consensus *major* differs from the client's yields `None`
(a differing consensus minor does not matter), otherwise the peer's supported
minor for the requested API major is returned, `None` if the peer does not
list that major. -/
def SupportedCoreApiVersions.getMinorApiVersion (s : SupportedCoreApiVersions)
    (cc : CoreConsensusVersion) (major : Nat) : Option Nat :=
  if s.coreConsensus.major = cc.major then
    (s.api.find? (fun v => v.major = major)).map (fun v => v.minor)
  else
    none

/-- Does this peer support client entry `cv` (same API major, peer minor at
least the client minor, compatible consensus version)?  This is the predicate
counted by `peers_compatible_num`. -/
def supportsEntry (cc : CoreConsensusVersion) (cv : ApiVersion)
    (sv : SupportedCoreApiVersions) : Bool :=
  match sv.getMinorApiVersion cc cv.major with
  | some peerMinor => cv.minor ≤ peerMinor
  | none => false

/-- `peers_compatible_num` for one client api version. -/
def peersCompatibleNum (cc : CoreConsensusVersion)
    (peers : List (PeerId × SupportedCoreApiVersions)) (cv : ApiVersion) : Nat :=
  (peers.map Prod.snd).countP (supportsEntry cc cv)

/-- One step of the best-major fold: keep the candidate with the strictly
highest peer count (ties keep the earlier candidate). -/
def bestMajorStep (cc : CoreConsensusVersion)
    (peers : List (PeerId × SupportedCoreApiVersions))
    (best : Option ApiVersion × Nat) (cv : ApiVersion) : Option ApiVersion × Nat :=
  if best.2 < peersCompatibleNum cc peers cv then (some cv, peersCompatibleNum cc peers cv)
  else best

/-- The supported minors of the peers that qualify for client entry `cv`
(the iterator whose `.min()` adjusts the minor). -/
def qualifyingMinors (cc : CoreConsensusVersion)
    (peers : List (PeerId × SupportedCoreApiVersions)) (cv : ApiVersion) :
    List Nat :=
  ((peers.map Prod.snd).filterMap
      (fun sv => sv.getMinorApiVersion cc cv.major)).filter
    (fun peerMinor => cv.minor ≤ peerMinor)

/-- `discover_common_core_api_version`.  The final `.min().expect(..)` cannot
fail when a best major was selected (its peer count is positive); the
unreachable panic is modelled as `none` through `Option.bind`. -/
def discoverCommonCoreApiVersion (client : SupportedCoreApiVersions)
    (peers : List (PeerId × SupportedCoreApiVersions)) : Option ApiVersion :=
  let best := client.api.foldl (bestMajorStep client.coreConsensus peers) (none, 0)
  best.1.bind fun cv =>
    (minList (qualifyingMinors client.coreConsensus peers cv)).map
      fun mn => ApiVersion.mk cv.major mn

/-! ## Mint server module (`modules/fedimint-mint-server/src/lib.rs`)

Type parameters: `ν` note nonces, `κ` secp256k1 public keys, `σ` blind
signatures on notes, `π` aggregate tier public keys, `ς` tier secret key
shares, `β` blind nonces, `ω` blind signature shares. Amounts are `Nat`
millisatoshis. -/

/-- `OutPoint { txid, out_idx }` (the transaction id is opaque). -/
structure OutPoint where
  txid : Nat
  outIdx : Nat
deriving DecidableEq

/-- `Note { nonce, signature }`; `spend_key()` is derived from the nonce in
the real code and modelled as a field. -/
structure Note (ν κ σ : Type) where
  nonce : ν
  signature : σ
  spendKey : κ

/-- `MintInput` (v0). -/
structure MintInput (ν κ σ : Type) where
  amount : Nat
  note : Note ν κ σ

/-- `MintOutput` (v0). -/
structure MintOutput (β : Type) where
  amount : Nat
  blindNonce : β

/-- `MintInputError` (the variants `process_input` can produce for a v0
input). -/
inductive MintInputError where
  | invalidAmountTier (amount : Nat)
  | invalidSignature
  | spentCoin
deriving DecidableEq

/-- `MintOutputError` for a v0 output. -/
inductive MintOutputError where
  | invalidAmountTier (amount : Nat)
deriving DecidableEq

/-- `InputMeta { amount: TransactionItemAmount { amount, fee }, pub_key }`. -/
structure InputMeta (κ : Type) where
  amount : Nat
  fee : Nat
  pubKey : κ

/-- `MintAuditItemKey`. -/
inductive MintAuditItemKey (ν : Type) where
  | issuance (op : OutPoint)
  | issuanceTotal
  | redemption (nonce : ν)
  | redemptionTotal
deriving DecidableEq

/-- `ECashUserBackupSnapshot`. -/
structure ECashUserBackupSnapshot where
  timestamp : Nat
  data : List Nat
deriving DecidableEq

/-- `SignedBackupRequest`; `sigValid` abstracts `verify_valid` (the secp
signature check on the request). -/
structure SignedBackupRequest (κ : Type) where
  id : κ
  timestamp : Nat
  payload : List Nat
  sigValid : Bool

/-- The mint module's slice of the database plus the post-commit hooks of the
open transaction: note nonces, audit items, output outcomes, e-cash backups,
and the `(amount, fee)` metric observations scheduled via `on_commit`. -/
structure MintDb (ν κ ω : Type) where
  nonces : List ν
  auditItems : List (MintAuditItemKey ν × Nat)
  outcomes : List (OutPoint × ω)
  backups : List (κ × ECashUserBackupSnapshot)
  onCommit : List (Nat × Nat)

/-- The `Mint` server module: tier key tables loaded at construction, the
verification / signing primitives, and the consensus fees. -/
structure Mint (ν κ σ π ς β ω : Type) where
  pubKey : Nat → Option π
  secKey : Nat → Option ς
  verify : Note ν κ σ → π → Bool
  signBlinded : β → ς → ω
  noteSpendAbs : Nat
  noteIssuanceAbs : Nat

variable {ν κ σ π ς β ω : Type}

/-- `Mint::process_input`: tier key lookup, signature verification, atomic
nonce insertion (`SpentCoin` if it was present: the rewrite of the existing
unit value leaves the nonce set unchanged), redemption audit item, scheduled
metrics, and the returned meta. -/
def Mint.processInput [DecidableEq ν] (m : Mint ν κ σ π ς β ω)
    (db : MintDb ν κ ω) (input : MintInput ν κ σ) :
    Except MintInputError (InputMeta κ) × MintDb ν κ ω :=
  match m.pubKey input.amount with
  | none => (.error (.invalidAmountTier input.amount), db)
  | some amountKey =>
    if ¬ m.verify input.note amountKey then
      (.error .invalidSignature, db)
    else if input.note.nonce ∈ db.nonces then
      (.error .spentCoin, db)
    else
      (.ok ⟨input.amount, m.noteSpendAbs, input.note.spendKey⟩,
        { db with
            nonces := db.nonces ++ [input.note.nonce]
            auditItems :=
              assocInsert (.redemption input.note.nonce) input.amount db.auditItems
            onCommit := db.onCommit ++ [(input.amount, m.noteSpendAbs)] })

/-- `Mint::process_output`: tier secret share lookup, blind signature share,
outcome and issuance audit writes, scheduled metrics. -/
def Mint.processOutput [DecidableEq ν] (m : Mint ν κ σ π ς β ω)
    (db : MintDb ν κ ω) (output : MintOutput β) (outPoint : OutPoint) :
    Except MintOutputError Nat × MintDb ν κ ω :=
  match m.secKey output.amount with
  | none => (.error (.invalidAmountTier output.amount), db)
  | some amountKey =>
    (.ok output.amount,
      { db with
          outcomes :=
            assocInsert outPoint (m.signBlinded output.blindNonce amountKey) db.outcomes
          auditItems := assocInsert (.issuance outPoint) output.amount db.auditItems
          onCommit := db.onCommit ++ [(output.amount, m.noteIssuanceAbs)] })

/-- Is this audit key of issuance kind (a per-outpoint item or the rolled-up
total)? -/
def MintAuditItemKey.isIssuanceKind : MintAuditItemKey ν → Bool
  | .issuance _ => true
  | .issuanceTotal => true
  | _ => false

/-- Is this audit key of redemption kind? -/
def MintAuditItemKey.isRedemptionKind : MintAuditItemKey ν → Bool
  | .redemption _ => true
  | .redemptionTotal => true
  | _ => false

/-- Is this audit key a per-outpoint issuance item (the total excluded)? -/
def MintAuditItemKey.isIssuanceItem : MintAuditItemKey ν → Bool
  | .issuance _ => true
  | _ => false

/-- Is this audit key a per-nonce redemption item (the total excluded)? -/
def MintAuditItemKey.isRedemptionItem : MintAuditItemKey ν → Bool
  | .redemption _ => true
  | _ => false

/-- The signed msat balance `Mint::audit` reports per entry: issuances
negative, redemptions positive. -/
def MintAuditItemKey.signedMsats : MintAuditItemKey ν → Nat → Int
  | .issuance _, v => -(v : Int)
  | .issuanceTotal, v => -(v : Int)
  | .redemption _, v => (v : Int)
  | .redemptionTotal, v => (v : Int)

/-- What the audit scan accumulates into `issuances`: the sum of every
issuance-kind entry (per-item entries and a prior total alike). -/
def issuanceKindSum (items : List (MintAuditItemKey ν × Nat)) : Nat :=
  ((items.filter (fun kv => kv.1.isIssuanceKind)).map Prod.snd).sum

/-- What the audit scan accumulates into `redemptions`. -/
def redemptionKindSum (items : List (MintAuditItemKey ν × Nat)) : Nat :=
  ((items.filter (fun kv => kv.1.isRedemptionKind)).map Prod.snd).sum

/-- The sum of the open per-item issuance entries only. -/
def openIssuanceSum (items : List (MintAuditItemKey ν × Nat)) : Nat :=
  ((items.filter (fun kv => kv.1.isIssuanceItem)).map Prod.snd).sum

/-- The sum of the open per-item redemption entries only. -/
def openRedemptionSum (items : List (MintAuditItemKey ν × Nat)) : Nat :=
  ((items.filter (fun kv => kv.1.isRedemptionItem)).map Prod.snd).sum

/-- `Mint::audit`: scan every audit entry summing per kind, delete all scanned
entries, write the two totals, and report the signed per-entry balances of the
table that the scan after the roll-up sees.  Returns the database and the
reported balances. -/
def Mint.audit [DecidableEq ν] (_m : Mint ν κ σ π ς β ω) (db : MintDb ν κ ω) :
    MintDb ν κ ω × List Int :=
  let newItems : List (MintAuditItemKey ν × Nat) :=
    [(.issuanceTotal, issuanceKindSum db.auditItems),
     (.redemptionTotal, redemptionKindSum db.auditItems)]
  ({ db with auditItems := newItems },
    newItems.map (fun kv => kv.1.signedMsats kv.2))

/-- `Mint::handle_backup_request`: verify the request signature, refuse a
timestamp not newer than the stored snapshot, otherwise overwrite. -/
def Mint.handleBackupRequest [DecidableEq κ] (_m : Mint ν κ σ π ς β ω)
    (db : MintDb ν κ ω) (request : SignedBackupRequest κ) :
    Except String Unit × MintDb ν κ ω :=
  if ¬ request.sigValid then (.error "invalid request", db)
  else
    match lookupAssoc request.id db.backups with
    | some prev =>
      if request.timestamp ≤ prev.timestamp then
        (.error "timestamp too small", db)
      else
        (.ok (),
          { db with
              backups :=
                assocInsert request.id
                  ⟨request.timestamp, request.payload⟩ db.backups })
    | none =>
      (.ok (),
        { db with
            backups :=
              assocInsert request.id
                ⟨request.timestamp, request.payload⟩ db.backups })

/-- `Mint::handle_recover_request`: pure read. -/
def Mint.handleRecoverRequest [DecidableEq κ] (_m : Mint ν κ σ π ς β ω)
    (db : MintDb ν κ ω) (id : κ) : Option ECashUserBackupSnapshot :=
  lookupAssoc id db.backups

/-- A mint database operation, for stating trace invariants. -/
inductive MintOp (ν κ σ β : Type) where
  | input (i : MintInput ν κ σ)
  | output (o : MintOutput β) (outPoint : OutPoint)
  | audit
  | backup (r : SignedBackupRequest κ)
  | recover (id : κ)

/-- Apply one operation; the second component is the nonce of a successfully
redeemed input, if this operation was one. -/
def Mint.applyOp [DecidableEq ν] [DecidableEq κ] (m : Mint ν κ σ π ς β ω)
    (db : MintDb ν κ ω) : MintOp ν κ σ β → MintDb ν κ ω × Option ν
  | .input i =>
    let r := m.processInput db i
    (r.2, match r.1 with | .ok _ => some i.note.nonce | .error _ => none)
  | .output o outPoint => ((m.processOutput db o outPoint).2, none)
  | .audit => ((m.audit db).1, none)
  | .backup r => ((m.handleBackupRequest db r).2, none)
  | .recover _ => (db, none)

/-- Run a sequence of operations, collecting the successfully redeemed
nonces in order. -/
def Mint.run [DecidableEq ν] [DecidableEq κ] (m : Mint ν κ σ π ς β ω)
    (db : MintDb ν κ ω) : List (MintOp ν κ σ β) → MintDb ν κ ω × List ν
  | [] => (db, [])
  | op :: rest =>
    let r := m.applyOp db op
    let rr := m.run r.1 rest
    (rr.1, r.2.toList ++ rr.2)

/-! ## Legacy `PartialSignatureKey` encoding (`minimint/src/consensus.rs`) -/

/-- `DB_PREFIX_PARTIAL_SIG = 2`. -/
def DB_PARTIAL_SIG_TAG : Nat := 2

/-- `PartialSignatureKey { request_id: u64, peer_id: u16 }`. -/
structure PartialSignatureKey where
  requestId : Nat
  peerId : Nat
deriving DecidableEq

/-- Big-endian byte string of width `w` (`u64::to_be_bytes` is `w = 8`,
`u16::to_be_bytes` is `w = 2`). -/
def natToBeBytes : Nat → Nat → List Nat
  | 0, _ => []
  | w + 1, n => natToBeBytes w (n / 256) ++ [n % 256]

/-- `u64::from_be_bytes` / `u16::from_be_bytes`. -/
def beBytesToNat (l : List Nat) : Nat :=
  l.foldl (fun a b => a * 256 + b) 0

/-- `PartialSignatureKey::to_bytes` (DatabaseEncode): the tag byte `0x02`,
then the request id as 8 big-endian bytes, then the peer id as 2 big-endian
bytes. -/
def PartialSignatureKey.toBytes (k : PartialSignatureKey) : List Nat :=
  DB_PARTIAL_SIG_TAG :: (natToBeBytes 8 k.requestId ++ natToBeBytes 2 k.peerId)

/-- `PartialSignatureKey::from_bytes` (DatabaseDecode): reject anything that
is not 11 bytes or does not start with the tag, otherwise decode the two
big-endian fields. -/
def PartialSignatureKey.fromBytes (data : List Nat) :
    Except String PartialSignatureKey :=
  if data.length ≠ 11 then
    .error "Expected 11 bytes, got something else"
  else if data.head? ≠ some DB_PARTIAL_SIG_TAG then
    .error "Expected partial sig, got something else"
  else
    .ok ⟨beBytesToNat ((data.drop 1).take 8), beBytesToNat ((data.drop 9).take 2)⟩

/-! ## Byte-encoding lemmas -/

theorem natToBeBytes_length (w n : Nat) : (natToBeBytes w n).length = w := by
  induction w generalizing n with
  | zero => rfl
  | succ w ih => simp [natToBeBytes, ih]

theorem foldl_natToBeBytes (w : Nat) :
    ∀ (n a : Nat),
      (natToBeBytes w n).foldl (fun x b => x * 256 + b) a = a * 256 ^ w + n % 256 ^ w := by
  induction w with
  | zero => intro n a; simp [natToBeBytes, Nat.mod_one]
  | succ w ih =>
    intro n a
    have hsplit : n % 256 ^ (w + 1) = ((n / 256) % 256 ^ w) * 256 + n % 256 := by
      have h256 : (256 : Nat) ^ (w + 1) = 256 * 256 ^ w := by ring
      rw [h256, Nat.mod_mul]
      ring
    simp only [natToBeBytes, List.foldl_append, List.foldl_cons, List.foldl_nil, ih]
    rw [hsplit]
    ring

theorem beBytesToNat_natToBeBytes (w n : Nat) :
    beBytesToNat (natToBeBytes w n) = n % 256 ^ w := by
  simpa using foldl_natToBeBytes w n 0

/-! ## Concrete fixtures used by witness and counterexample theorems -/

/-- A mint over `Nat`-coded crypto material whose verification accepts
everything, with tier keys at every amount. -/
def mintAll : Mint Nat Nat Nat Nat Nat Nat Nat :=
  ⟨fun a => some a, fun a => some a, fun _ _ => true, fun b _ => b, 1, 2⟩

/-- A mint with an empty tier key table. -/
def mintNoTiers : Mint Nat Nat Nat Nat Nat Nat Nat :=
  ⟨fun _ => none, fun _ => none, fun _ _ => false, fun b _ => b, 1, 2⟩

/-- The empty mint database. -/
def emptyMintDb : MintDb Nat Nat Nat := ⟨[], [], [], [], []⟩

/-- A concrete valid input: amount 8, nonce 5, spend key 9. -/
def sampleInput : MintInput Nat Nat Nat := ⟨8, ⟨5, 0, 9⟩⟩

/-! ## Union strategy helpers -/

/-- The contents of the deduplicated union after a step: the drained payload
on `Success`, the stored union otherwise. -/
def UnionResponses.resultUnion {R : Type}
    (y : QueryStep (List R) × UnionResponses R) : List R :=
  match y.1 with
  | .success u => u
  | _ => y.2.union

/-- As `UnionResponses.resultUnion`, for the single-value strategy. -/
def UnionResponsesSingle.resultUnion {R : Type}
    (y : QueryStep (List R) × UnionResponsesSingle R) : List R :=
  match y.1 with
  | .success u => u
  | _ => y.2.union

theorem mem_unionPush {R : Type} [DecidableEq R] (u : List R) (r : R) :
    r ∈ unionPush u r := by
  unfold unionPush
  split
  · assumption
  · simp

theorem unionPush_of_mem {R : Type} [DecidableEq R] {u : List R} {r : R}
    (h : r ∈ u) : unionPush u r = u := by
  simp [unionPush, h]

theorem foldl_unionPush_of_subset {R : Type} [DecidableEq R] {u : List R}
    {rs : List R} (h : ∀ x ∈ rs, x ∈ u) : rs.foldl unionPush u = u := by
  induction rs with
  | nil => rfl
  | cons x rest ih =>
    have hx : x ∈ u := h x (List.mem_cons_self x rest)
    simp only [List.foldl_cons, unionPush_of_mem hx]
    exact ih (fun y hy => h y (List.mem_cons_of_mem x hy))

/-! ## Claim theorems -/

/-- C10.  Error atomicity of `process_input`: whenever it returns an error,
the database is unchanged — no nonce-set change, no redemption audit item,
no scheduled post-commit metric observation. -/
theorem processInput_error_atomicity {ν κ σ π ς β ω : Type} [DecidableEq ν]
    (m : Mint ν κ σ π ς β ω) (db : MintDb ν κ ω) (input : MintInput ν κ σ)
    (e : MintInputError) (h : (m.processInput db input).1 = .error e) :
    (m.processInput db input).2 = db := by
  unfold Mint.processInput at h ⊢
  cases hpk : m.pubKey input.amount with
  | none => simp [hpk]
  | some key =>
    simp only [hpk] at h ⊢
    split_ifs at h ⊢ <;> simp_all

/-- Witness for C10: a mint with no tier keys rejects the sample input and
leaves the empty database untouched. -/
theorem processInput_error_atomicity_witness :
    (mintNoTiers.processInput emptyMintDb sampleInput).2 = emptyMintDb :=
  processInput_error_atomicity mintNoTiers emptyMintDb sampleInput
    (.invalidAmountTier 8) rfl

/-- C2.  The full contract of `process_input` on a v0 input: missing tier key
→ `InvalidAmountTier(amount)`; failing signature → `InvalidSignature`; nonce
already present → `SpentCoin`; otherwise the nonce and a redemption audit
item are inserted, the metrics observation is scheduled, and the meta
`{amount, fee = note_spend_abs, pub_key = spend key}` is returned.  In
particular the same valid input applied twice in one transaction returns `Ok`
then `SpentCoin`. -/
theorem processInput_contract {ν κ σ π ς β ω : Type} [DecidableEq ν] :
    ∀ (m : Mint ν κ σ π ς β ω) (db : MintDb ν κ ω) (input : MintInput ν κ σ),
    (m.pubKey input.amount = none →
      m.processInput db input = (.error (.invalidAmountTier input.amount), db))
    ∧ (∀ key, m.pubKey input.amount = some key →
        m.verify input.note key = false →
        m.processInput db input = (.error .invalidSignature, db))
    ∧ (∀ key, m.pubKey input.amount = some key →
        m.verify input.note key = true →
        input.note.nonce ∈ db.nonces →
        m.processInput db input = (.error .spentCoin, db))
    ∧ (∀ key, m.pubKey input.amount = some key →
        m.verify input.note key = true →
        input.note.nonce ∉ db.nonces →
        m.processInput db input =
          (.ok ⟨input.amount, m.noteSpendAbs, input.note.spendKey⟩,
            { db with
                nonces := db.nonces ++ [input.note.nonce]
                auditItems :=
                  assocInsert (.redemption input.note.nonce) input.amount
                    db.auditItems
                onCommit := db.onCommit ++ [(input.amount, m.noteSpendAbs)] }))
    ∧ (∀ key, m.pubKey input.amount = some key →
        m.verify input.note key = true →
        input.note.nonce ∉ db.nonces →
        (m.processInput db input).1 =
            .ok ⟨input.amount, m.noteSpendAbs, input.note.spendKey⟩
          ∧ (m.processInput (m.processInput db input).2 input).1 =
            .error .spentCoin) := by
  intro m db input
  refine ⟨?_, ?_, ?_, ?_, ?_⟩
  · intro h
    simp [Mint.processInput, h]
  · intro key hk hv
    simp [Mint.processInput, hk, hv]
  · intro key hk hv hmem
    simp [Mint.processInput, hk, hv, hmem]
  · intro key hk hv hmem
    simp [Mint.processInput, hk, hv, hmem]
  · intro key hk hv hmem
    have h1 : m.processInput db input =
        (.ok ⟨input.amount, m.noteSpendAbs, input.note.spendKey⟩,
          { db with
              nonces := db.nonces ++ [input.note.nonce]
              auditItems :=
                assocInsert (.redemption input.note.nonce) input.amount
                  db.auditItems
              onCommit := db.onCommit ++ [(input.amount, m.noteSpendAbs)] }) := by
      simp [Mint.processInput, hk, hv, hmem]
    refine ⟨by rw [h1], ?_⟩
    rw [h1]
    simp [Mint.processInput, hk, hv]

/-- C8.  Union idempotence for `UnionResponses` and `UnionResponsesSingle`:
a response already fed (hence contained in the union) never changes the
union's contents when fed again, and feeding a response once does put it in
the union. -/
theorem union_idempotence {R : Type} [DecidableEq R] :
    ∀ (st : UnionResponses R) (stS : UnionResponsesSingle R) (p : PeerId)
      (r : R) (rs : List R),
    (p ∉ st.responses → (∀ x ∈ rs, x ∈ st.union) →
      ∃ y, st.process p (.ok rs) = some y
        ∧ UnionResponses.resultUnion y = st.union)
    ∧ (p ∉ stS.responses → r ∈ stS.union →
      ∃ y, stS.process p (.ok r) = some y
        ∧ UnionResponsesSingle.resultUnion y = stS.union)
    ∧ (p ∉ stS.responses →
      ∃ y, stS.process p (.ok r) = some y
        ∧ r ∈ UnionResponsesSingle.resultUnion y) := by
  intro st stS p r rs
  refine ⟨?_, ?_, ?_⟩
  · intro hp hsub
    simp only [UnionResponses.process, foldl_unionPush_of_subset hsub, if_neg hp]
    split <;> exact ⟨_, rfl, rfl⟩
  · intro hp hmem
    simp only [UnionResponsesSingle.process, unionPush_of_mem hmem, if_neg hp]
    split <;> exact ⟨_, rfl, rfl⟩
  · intro hp
    simp only [UnionResponsesSingle.process, if_neg hp]
    split <;> exact ⟨_, rfl, mem_unionPush _ _⟩

/-- C9.  The legacy `PartialSignatureKey` encoding: `to_bytes` is the tag
byte `0x02` followed by the 8 big-endian request-id bytes and the 2
big-endian peer-id bytes (11 bytes in all); `from_bytes` inverts it on every
in-range key; and `from_bytes` rejects any input whose length is not 11 or
whose first byte is not `0x02`. -/
theorem partialSignatureKey_encoding :
    ∀ (k : PartialSignatureKey) (data : List Nat),
    k.toBytes =
        DB_PARTIAL_SIG_TAG ::
          (natToBeBytes 8 k.requestId ++ natToBeBytes 2 k.peerId)
    ∧ k.toBytes.length = 11
    ∧ (k.requestId < 2 ^ 64 → k.peerId < 2 ^ 16 →
        PartialSignatureKey.fromBytes k.toBytes = .ok k)
    ∧ (data.length ≠ 11 ∨ data.head? ≠ some DB_PARTIAL_SIG_TAG →
        (PartialSignatureKey.fromBytes data).isOk = false) := by
  intro k data
  refine ⟨rfl, ?_, ?_, ?_⟩
  · simp [PartialSignatureKey.toBytes, natToBeBytes_length]
  · intro h64 h16
    have l8 : (natToBeBytes 8 k.requestId).length = 8 := natToBeBytes_length _ _
    have l2 : (natToBeBytes 2 k.peerId).length = 2 := natToBeBytes_length _ _
    have hlen : (PartialSignatureKey.toBytes k).length = 11 := by
      simp [PartialSignatureKey.toBytes, natToBeBytes_length]
    have htake :
        ((PartialSignatureKey.toBytes k).drop 1).take 8 =
          natToBeBytes 8 k.requestId := by
      simp only [PartialSignatureKey.toBytes, List.drop_succ_cons, List.drop_zero]
      exact List.take_left' l8
    have hdrop :
        ((PartialSignatureKey.toBytes k).drop 9).take 2 =
          natToBeBytes 2 k.peerId := by
      simp only [PartialSignatureKey.toBytes, List.drop_succ_cons, List.drop_zero]
      rw [show ((natToBeBytes 8 k.requestId ++ natToBeBytes 2 k.peerId).drop 8) =
            natToBeBytes 2 k.peerId from List.drop_left' l8]
      exact l2 ▸ List.take_length _
    have hhead : (PartialSignatureKey.toBytes k).head? = some DB_PARTIAL_SIG_TAG := rfl
    have hreq : beBytesToNat (((PartialSignatureKey.toBytes k).drop 1).take 8) =
        k.requestId := by
      rw [htake, beBytesToNat_natToBeBytes]
      exact Nat.mod_eq_of_lt (by calc k.requestId < 2 ^ 64 := h64
        _ = 256 ^ 8 := by norm_num)
    have hpeer : beBytesToNat (((PartialSignatureKey.toBytes k).drop 9).take 2) =
        k.peerId := by
      rw [hdrop, beBytesToNat_natToBeBytes]
      exact Nat.mod_eq_of_lt (by calc k.peerId < 2 ^ 16 := h16
        _ = 256 ^ 2 := by norm_num)
    unfold PartialSignatureKey.fromBytes
    rw [if_neg (by rw [hlen]; simp), if_neg (by rw [hhead]; simp), hreq, hpeer]
  · intro h
    unfold PartialSignatureKey.fromBytes
    by_cases hl : data.length ≠ 11
    · rw [if_pos hl]; rfl
    · rcases h with h | h
      · exact absurd h hl
      · rw [if_neg hl, if_pos h]; rfl

/-! ## Nonce immortality and double-spend impossibility (C1) -/

/-- Outcome of `process_input` relevant to the nonce set: either it errors
and leaves the database alone, or it succeeds on a fresh nonce and appends
exactly that nonce. -/
theorem processInput_result {ν κ σ π ς β ω : Type} [DecidableEq ν]
    (m : Mint ν κ σ π ς β ω) (db : MintDb ν κ ω) (i : MintInput ν κ σ) :
    ((m.processInput db i).1.isOk = false ∧ (m.processInput db i).2 = db)
    ∨ ((m.processInput db i).1.isOk = true ∧ i.note.nonce ∉ db.nonces
        ∧ (m.processInput db i).2.nonces = db.nonces ++ [i.note.nonce]) := by
  unfold Mint.processInput
  cases m.pubKey i.amount with
  | none => left; exact ⟨rfl, rfl⟩
  | some key =>
    cases hv : m.verify i.note key with
    | false => left; simp [hv, Except.isOk, Except.toBool]
    | true =>
      by_cases hm : i.note.nonce ∈ db.nonces
      · left; simp [hv, hm, Except.isOk, Except.toBool]
      · right; simp [hv, hm, Except.isOk, Except.toBool]

theorem handleBackupRequest_nonces {ν κ σ π ς β ω : Type} [DecidableEq κ]
    (m : Mint ν κ σ π ς β ω) (db : MintDb ν κ ω) (r : SignedBackupRequest κ) :
    (m.handleBackupRequest db r).2.nonces = db.nonces := by
  unfold Mint.handleBackupRequest
  split
  · rfl
  · split
    · split <;> rfl
    · rfl

theorem applyOp_nonces_mono {ν κ σ π ς β ω : Type} [DecidableEq ν]
    [DecidableEq κ] (m : Mint ν κ σ π ς β ω) (db : MintDb ν κ ω)
    (op : MintOp ν κ σ β) : ∀ n ∈ db.nonces, n ∈ (m.applyOp db op).1.nonces := by
  intro n hn
  cases op with
  | input i =>
    show n ∈ (m.processInput db i).2.nonces
    rcases processInput_result m db i with ⟨_, hdb⟩ | ⟨_, _, hnonces⟩
    · rw [hdb]; exact hn
    · rw [hnonces]; exact List.mem_append_left _ hn
  | output o outPoint =>
    show n ∈ (m.processOutput db o outPoint).2.nonces
    unfold Mint.processOutput
    cases m.secKey o.amount with
    | none => exact hn
    | some key => exact hn
  | audit => exact hn
  | backup r =>
    show n ∈ (m.handleBackupRequest db r).2.nonces
    rw [handleBackupRequest_nonces]
    exact hn
  | recover id => exact hn

theorem applyOp_redeemed {ν κ σ π ς β ω : Type} [DecidableEq ν]
    [DecidableEq κ] (m : Mint ν κ σ π ς β ω) (db : MintDb ν κ ω)
    (op : MintOp ν κ σ β) (n : ν) (h : (m.applyOp db op).2 = some n) :
    n ∉ db.nonces ∧ n ∈ (m.applyOp db op).1.nonces := by
  cases op with
  | input i =>
    simp only [Mint.applyOp] at h ⊢
    cases hfst : (m.processInput db i).1 with
    | error e => rw [hfst] at h; simp at h
    | ok meta =>
      rw [hfst] at h
      simp only [Option.some.injEq] at h
      subst h
      rcases processInput_result m db i with ⟨hbad, _⟩ | ⟨_, hfresh, hnonces⟩
      · rw [hfst] at hbad; simp [Except.isOk, Except.toBool] at hbad
      · exact ⟨hfresh, by rw [hnonces]; simp⟩
  | output o outPoint => simp [Mint.applyOp] at h
  | audit => simp [Mint.applyOp] at h
  | backup r => simp [Mint.applyOp] at h
  | recover id => simp [Mint.applyOp] at h

/-- C1.  Double-spend impossibility and nonce immortality: along any sequence
of mint operations against one database state, every nonce already in the
nonce set stays in it (no operation removes a nonce), the successfully
redeemed nonces are pairwise distinct (each nonce redeems `Ok` at most once),
and none of them was in the nonce set to begin with. -/
theorem mint_double_spend_impossibility {ν κ σ π ς β ω : Type} [DecidableEq ν]
    [DecidableEq κ] :
    ∀ (m : Mint ν κ σ π ς β ω) (ops : List (MintOp ν κ σ β)) (db : MintDb ν κ ω),
    (∀ n ∈ db.nonces, n ∈ (m.run db ops).1.nonces)
    ∧ (m.run db ops).2.Nodup
    ∧ (∀ n ∈ (m.run db ops).2, n ∉ db.nonces) := by
  intro m ops
  induction ops with
  | nil => intro db; simp [Mint.run]
  | cons op rest ih =>
    intro db
    obtain ⟨ih1, ih2, ih3⟩ := ih (m.applyOp db op).1
    have hmono := applyOp_nonces_mono m db op
    refine ⟨fun n hn => ih1 n (hmono n hn), ?_, ?_⟩
    · simp only [Mint.run]
      cases hr : (m.applyOp db op).2 with
      | none => simpa using ih2
      | some n =>
        simp only [Option.toList, List.singleton_append, List.nodup_cons]
        refine ⟨fun hmem => ?_, ih2⟩
        exact ih3 n hmem (applyOp_redeemed m db op n hr).2
    · intro n hn hdb
      simp only [Mint.run, List.mem_append] at hn
      rcases hn with hn | hn
      · cases hr : (m.applyOp db op).2 with
        | none => rw [hr] at hn; simp at hn
        | some n' =>
          rw [hr] at hn
          simp only [Option.toList, List.mem_singleton] at hn
          subst hn
          exact (applyOp_redeemed m db op n hr).1 hdb
      · exact ih3 n hn (hmono n hdb)

/-! ## Audit roll-up conservation (C7) -/

theorem lookupAssoc_eq_none_of_not_mem {κ' β' : Type} [DecidableEq κ']
    {k : κ'} {l : List (κ' × β')} (h : k ∉ l.map Prod.fst) :
    lookupAssoc k l = none := by
  induction l with
  | nil => rfl
  | cons kv rest ih =>
    simp only [List.map_cons, List.mem_cons] at h
    push_neg at h
    simp only [lookupAssoc] at ih ⊢
    rw [List.find?_cons_of_neg _ (by simp; exact fun hh => h.1 hh.symm)]
    exact ih h.2

/-- The scan total of a kind splits, under distinct keys, into the stored
total plus the open per-item entries of that kind. -/
theorem kindSum_split {κ' : Type} [DecidableEq κ'] (kindP itemP : κ' → Bool)
    (tot : κ') (hk : ∀ k, kindP k = (itemP k || decide (k = tot)))
    (hit : itemP tot = false) :
    ∀ (items : List (κ' × Nat)), (items.map Prod.fst).Nodup →
    ((items.filter (fun kv => kindP kv.1)).map Prod.snd).sum
      = (lookupAssoc tot items).getD 0
        + ((items.filter (fun kv => itemP kv.1)).map Prod.snd).sum := by
  intro items
  induction items with
  | nil => intro _; simp [lookupAssoc]
  | cons kv rest ih =>
    intro hnodup
    obtain ⟨k, v⟩ := kv
    simp only [List.map_cons, List.nodup_cons] at hnodup
    obtain ⟨hknotin, hrest⟩ := hnodup
    have ihr := ih hrest
    by_cases hkt : k = tot
    · subst hkt
      have hkind : kindP k = true := by rw [hk]; simp
      have hlook : lookupAssoc k ((k, v) :: rest) = some v := by
        simp only [lookupAssoc]
        rw [List.find?_cons_of_pos _ (by simp)]
        rfl
      have hlookrest : lookupAssoc k rest = none :=
        lookupAssoc_eq_none_of_not_mem hknotin
      rw [hlookrest] at ihr
      simp only [Option.getD_none, Nat.zero_add] at ihr
      simp [List.filter_cons, hkind, hit, hlook, ihr]
    · have hlook : lookupAssoc tot ((k, v) :: rest) = lookupAssoc tot rest := by
        simp only [lookupAssoc]
        rw [List.find?_cons_of_neg _ (by simp [hkt])]
      have hkind : kindP k = itemP k := by
        rw [hk, decide_eq_false hkt, Bool.or_false]
      cases hip : itemP k with
      | true =>
        simp [List.filter_cons, hkind, hip, hlook, ihr]
        omega
      | false =>
        simp [List.filter_cons, hkind, hip, hlook, ihr]

/-- C7.  Audit roll-up conservation: one `audit` call leaves exactly the two
totals, the new `IssuanceTotal` is the prior total plus the open per-item
issuance entries (likewise for redemption), the report lists the issuance
total as negative msats and the redemption total as positive, and the grand
per-kind totals are preserved across the roll-up. -/
theorem mint_audit_conservation {ν κ σ π ς β ω : Type} [DecidableEq ν]
    (m : Mint ν κ σ π ς β ω) (db : MintDb ν κ ω)
    (hnodup : (db.auditItems.map Prod.fst).Nodup) :
    (m.audit db).1.auditItems =
      [(.issuanceTotal,
          (lookupAssoc .issuanceTotal db.auditItems).getD 0
            + openIssuanceSum db.auditItems),
        (.redemptionTotal,
          (lookupAssoc .redemptionTotal db.auditItems).getD 0
            + openRedemptionSum db.auditItems)]
    ∧ (m.audit db).2 =
      [-(issuanceKindSum db.auditItems : Int),
        (redemptionKindSum db.auditItems : Int)]
    ∧ issuanceKindSum (m.audit db).1.auditItems = issuanceKindSum db.auditItems
    ∧ redemptionKindSum (m.audit db).1.auditItems
        = redemptionKindSum db.auditItems := by
  have hiss : issuanceKindSum db.auditItems
      = (lookupAssoc .issuanceTotal db.auditItems).getD 0
        + openIssuanceSum db.auditItems := by
    apply kindSum_split
      (MintAuditItemKey.isIssuanceKind) (MintAuditItemKey.isIssuanceItem)
      (MintAuditItemKey.issuanceTotal) ?_ rfl db.auditItems hnodup
    intro k
    cases k <;> rfl
  have hred : redemptionKindSum db.auditItems
      = (lookupAssoc .redemptionTotal db.auditItems).getD 0
        + openRedemptionSum db.auditItems := by
    apply kindSum_split
      (MintAuditItemKey.isRedemptionKind) (MintAuditItemKey.isRedemptionItem)
      (MintAuditItemKey.redemptionTotal) ?_ rfl db.auditItems hnodup
    intro k
    cases k <;> rfl
  refine ⟨?_, rfl, ?_, ?_⟩
  · simp only [Mint.audit, hiss, hred]
  · simp [Mint.audit, issuanceKindSum, MintAuditItemKey.isIssuanceKind,
      List.filter_cons]
  · simp [Mint.audit, redemptionKindSum, MintAuditItemKey.isRedemptionKind,
      List.filter_cons]

/-- Witness for C7: a concrete audit table with one open issuance item (5),
a prior issuance total (7) and one open redemption item (2) rolls up to the
totals 12 and 2. -/
theorem mint_audit_conservation_witness :
    (mintAll.audit
        { emptyMintDb with
            auditItems :=
              [(.issuance ⟨0, 0⟩, 5), (.issuanceTotal, 7), (.redemption 3, 2)] }).1.auditItems
      = [(.issuanceTotal, 12), (.redemptionTotal, 2)] := by
  have h := mint_audit_conservation mintAll
    { emptyMintDb with
        auditItems :=
          [(.issuance ⟨0, 0⟩, 5), (.issuanceTotal, 7), (.redemption 3, 2)] }
    (by decide)
  rw [h.1]
  rfl

/-! ## BFT error bound (C3) -/

/-- Feed a list of per-peer errors through `ErrorStrategy::process`. -/
def runErrorStrategy {R : Type} :
    ErrorStrategy → List (PeerId × PeerError) → Option (List (QueryStep R) × ErrorStrategy)
  | st, [] => some ([], st)
  | st, (p, e) :: rest =>
    (st.process p e).bind fun x =>
      (runErrorStrategy x.2 rest).map fun y => (x.1 :: y.1, y.2)

theorem runErrorStrategy_spec {R : Type} :
    ∀ (errs : List (PeerId × PeerError)) (st : ErrorStrategy),
    ((st.errors ++ errs).map Prod.fst).Nodup →
    (0 < errs.length → st.errors.length + errs.length = st.threshold →
      runErrorStrategy (R := R) st errs
        = some (List.replicate (errs.length - 1) .cont
            ++ [.failure (st.errors ++ errs)], ⟨[], st.threshold⟩))
    ∧ (st.errors.length + errs.length < st.threshold →
      runErrorStrategy (R := R) st errs
        = some (List.replicate errs.length .cont, ⟨st.errors ++ errs, st.threshold⟩)) := by
  intro errs
  induction errs with
  | nil =>
    intro st _
    refine ⟨fun h0 _ => by simp at h0, fun _ => ?_⟩
    simp [runErrorStrategy]
  | cons pe rest ih =>
    intro st hnodup
    obtain ⟨p, e⟩ := pe
    have hnodup' :
        (st.errors.map Prod.fst ++ p :: rest.map Prod.fst).Nodup := by
      simpa using hnodup
    have hpfresh : p ∉ st.errors.map Prod.fst := by
      intro hmem
      rcases List.nodup_append.mp hnodup' with ⟨_, _, hdisj⟩
      exact hdisj hmem (List.mem_cons_self _ _)
    have hstep : st.process (R := R) p e =
        if (st.errors ++ [(p, e)]).length = st.threshold then
          some (.failure (st.errors ++ [(p, e)]), { st with errors := [] })
        else
          some (.cont, { st with errors := st.errors ++ [(p, e)] }) := by
      simp [ErrorStrategy.process, hpfresh]
    have hassoc : (st.errors ++ [(p, e)]) ++ rest = st.errors ++ (p, e) :: rest := by
      simp
    by_cases hlen : st.errors.length + 1 = st.threshold
    · have hcond : (st.errors ++ [(p, e)]).length = st.threshold := by
        simp [hlen]
      constructor
      · intro _ hsum
        have hrest : rest = [] := by
          have : rest.length = 0 := by simp at hsum; omega
          exact List.length_eq_zero.mp this
        subst hrest
        simp only [runErrorStrategy, hstep, if_pos hcond, Option.bind_some]
        simp
      · intro hlt
        exfalso
        simp at hlt
        omega
    · have hcond : ¬ (st.errors ++ [(p, e)]).length = st.threshold := by
        simp only [List.length_append, List.length_singleton]
        exact hlen
      have ihs := ih ⟨st.errors ++ [(p, e)], st.threshold⟩
        (by rw [show (⟨st.errors ++ [(p, e)], st.threshold⟩ : ErrorStrategy).errors
              = st.errors ++ [(p, e)] from rfl, hassoc]; exact hnodup)
      constructor
      · intro _ hsum
        have hrestpos : 0 < rest.length := by
          rcases Nat.eq_zero_or_pos rest.length with hz | hpos
          · exfalso; apply hlen; simp at hsum; omega
          · exact hpos
        have hrun := ihs.1 hrestpos (by simp at hsum ⊢; omega)
        have hrepl : List.replicate (((p, e) :: rest).length - 1) (QueryStep.cont (R := R))
            = .cont :: List.replicate (rest.length - 1) .cont := by
          simp only [List.length_cons]
          rw [show rest.length + 1 - 1 = (rest.length - 1) + 1 by omega,
            List.replicate_succ]
        simp only [runErrorStrategy, hstep, if_neg hcond, hrepl]
        simp [hrun, hassoc]
      · intro hlt
        have hrun := ihs.2 (by simp at hlt ⊢; omega)
        simp only [runErrorStrategy, hstep, if_neg hcond]
        simp [hrun, hassoc, List.replicate_succ]

/-- C3 (amended).  BFT error bound for the strategies built on the shared
`ErrorStrategy` helper.  Every one of `FilterMap`, `FilterMapThreshold`,
`ThresholdConsensus`, `UnionResponses` and `UnionResponsesSingle` routes an
error response to `ErrorStrategy::process` and all are constructed with
error threshold `f + 1 = (N - 1) / 3 + 1`; the helper, fed errors from
`f + 1` distinct peers, answers `Continue` to the first `f` and then
`Failure` carrying the full accumulated peer→error map, which is drained;
any shorter prefix of distinct-peer errors produces only `Continue`. -/
theorem bft_error_bound {R T : Type} [DecidableEq R] :
    ∀ (N : Nat) (errs : List (PeerId × PeerError)) (st₁ : FilterMap R T)
      (st₂ : FilterMapThreshold R T) (st₃ : ThresholdConsensus R)
      (st₄ : UnionResponses R) (st₅ : UnionResponsesSingle R) (p : PeerId)
      (e : PeerError),
    (st₁.process p (.error e)
      = (st₁.errorStrategy.process p e).map
          (fun x => (x.1, { st₁ with errorStrategy := x.2 })))
    ∧ (st₂.process p (.error e)
      = (st₂.errorStrategy.process p e).map
          (fun x => (x.1, { st₂ with errorStrategy := x.2 })))
    ∧ (st₃.process p (.error e)
      = (st₃.errorStrategy.process p e).map
          (fun x => (x.1, { st₃ with errorStrategy := x.2 })))
    ∧ (st₄.process p (.error e)
      = (st₄.errorStrategy.process p e).map
          (fun x => (x.1, { st₄ with errorStrategy := x.2 })))
    ∧ (st₅.process p (.error e)
      = (st₅.errorStrategy.process p e).map
          (fun x => (x.1, { st₅ with errorStrategy := x.2 })))
    ∧ ((errs.map Prod.fst).Nodup → errs.length = maxEvil N + 1 →
        runErrorStrategy (R := T) (ErrorStrategy.new (maxEvil N + 1)) errs
          = some (List.replicate (maxEvil N) .cont ++ [.failure errs],
              ErrorStrategy.new (maxEvil N + 1)))
    ∧ ((errs.map Prod.fst).Nodup → errs.length < maxEvil N + 1 →
        runErrorStrategy (R := T) (ErrorStrategy.new (maxEvil N + 1)) errs
          = some (List.replicate errs.length .cont,
              ⟨errs, maxEvil N + 1⟩)) := by
  intro N errs st₁ st₂ st₃ st₄ st₅ p e
  refine ⟨rfl, rfl, rfl, rfl, rfl, ?_, ?_⟩
  · intro hnodup hlen
    have hs := (runErrorStrategy_spec (R := T) errs
      (ErrorStrategy.new (maxEvil N + 1)) (by simpa [ErrorStrategy.new] using hnodup)).1
      (by omega) (by simp [ErrorStrategy.new, hlen])
    simpa [ErrorStrategy.new, hlen] using hs
  · intro hnodup hlen
    have hs := (runErrorStrategy_spec (R := T) errs
      (ErrorStrategy.new (maxEvil N + 1)) (by simpa [ErrorStrategy.new] using hnodup)).2
      (by simp [ErrorStrategy.new]; omega)
    simpa [ErrorStrategy.new] using hs

/-- Counterexample to C3 as stated: `AllOrDeadline` is a query strategy
constructed with `N = 4` total peers, yet fed error responses from
`f + 1 = 2` distinct peers (before its deadline) it emits two `Retry` steps
and never a `Failure`. -/
theorem bft_error_bound_counterexample :
    runStrategy
        (fun (s : AllOrDeadline Nat) p r => AllOrDeadline.process s 0 p r)
        (AllOrDeadline.new Nat 4 10)
        [(0, .error (.transport "a")), (1, .error (.transport "b"))]
      = some ([.retry [0], .retry [1]], AllOrDeadline.new Nat 4 10)
    ∧ maxEvil 4 + 1 = 2
    ∧ (QueryStep.retry (R := List (PeerId × Nat)) [0]).isFailure = false
    ∧ (QueryStep.retry (R := List (PeerId × Nat)) [1]).isFailure = false := by
  refine ⟨rfl, rfl, rfl, rfl⟩

/-! ## ThresholdConsensus (C4) -/

/-- Is this peer result an error? -/
def isErrResult {R : Type} : PeerResult R → Bool
  | .error _ => true
  | .ok _ => false

/-- Is this peer result `Ok` of exactly the value `v`? -/
def isOkOf {R : Type} [DecidableEq R] (v : R) : PeerResult R → Bool
  | .ok w => decide (w = v)
  | .error _ => false

theorem assocInsert_of_not_mem {κ β : Type} [DecidableEq κ] {k : κ}
    {l : List (κ × β)} (h : k ∉ l.map Prod.fst) (v : β) :
    assocInsert k v l = l ++ [(k, v)] := by
  induction l with
  | nil => rfl
  | cons kv rest ih =>
    simp only [List.map_cons, List.mem_cons] at h
    push_neg at h
    simp only [assocInsert, if_neg h.1, List.cons_append]
    rw [ih h.2]

theorem countVal_append {R : Type} [DecidableEq R] (v : R) (l₁ l₂ : List R) :
    countVal v (l₁ ++ l₂) = countVal v l₁ + countVal v l₂ :=
  List.countP_append _ _ _

theorem countVal_le_length {R : Type} [DecidableEq R] (v : R) (l : List R) :
    countVal v l ≤ l.length :=
  List.countP_le_length _

theorem countVal_pair_le {R : Type} [DecidableEq R] {a b : R} (hab : a ≠ b)
    (l : List R) : countVal a l + countVal b l ≤ l.length := by
  induction l with
  | nil => simp [countVal]
  | cons x rest ih =>
    simp only [countVal, List.countP_cons, List.length_cons] at ih ⊢
    by_cases hxa : x = a
    · subst hxa
      simp only [decide_eq_true_eq, if_true, eq_self_iff_true]
      rw [if_neg hab]
      omega
    · by_cases hxb : x = b
      · subst hxb
        simp only [decide_eq_true_eq, if_true, eq_self_iff_true]
        rw [if_neg hxa]
        omega
      · simp only [decide_eq_true_eq]
        rw [if_neg hxa, if_neg hxb]
        omega

theorem countVal_pos_mem {R : Type} [DecidableEq R] {v : R} {l : List R}
    (h : 0 < countVal v l) : v ∈ l := by
  induction l with
  | nil => simp [countVal] at h
  | cons x rest ih =>
    simp only [countVal, List.countP_cons] at h
    by_cases hx : x = v
    · simp [hx]
    · simp only [hx, decide_False] at h
      exact List.mem_cons_of_mem x (ih (by simpa [countVal] using h))

theorem getMostCommon_fold_spec {R : Type} [DecidableEq R] (l : List R) :
    ∀ (s : List R) (b : R), ∃ c,
      s.foldl (fun acc r => match acc with
        | none => some r
        | some b' => if countVal b' l ≤ countVal r l then some r else some b')
        (some b) = some c
      ∧ countVal b l ≤ countVal c l
      ∧ ∀ x ∈ s, countVal x l ≤ countVal c l := by
  intro s
  induction s with
  | nil => intro b; exact ⟨b, rfl, le_refl _, by simp⟩
  | cons x rest ih =>
    intro b
    by_cases hle : countVal b l ≤ countVal x l
    · obtain ⟨c, hc, hxc, hall⟩ := ih x
      refine ⟨c, ?_, hle.trans hxc, ?_⟩
      · simpa [hle] using hc
      · intro y hy
        rcases List.mem_cons.mp hy with rfl | hy'
        · exact hxc
        · exact hall y hy'
    · obtain ⟨c, hc, hbc, hall⟩ := ih b
      refine ⟨c, ?_, hbc, ?_⟩
      · simpa [hle] using hc
      · intro y hy
        rcases List.mem_cons.mp hy with rfl | hy'
        · exact ((Nat.not_le.mp hle).le).trans hbc
        · exact hall y hy'

theorem getMostCommonResponse_spec {R : Type} [DecidableEq R] {l : List R}
    (hne : l ≠ []) : ∃ mc, getMostCommonResponse l = some mc
      ∧ ∀ y ∈ l, countVal y l ≤ countVal mc l := by
  cases l with
  | nil => exact absurd rfl hne
  | cons x rest =>
    obtain ⟨c, hc, hxc, hall⟩ := getMostCommon_fold_spec (x :: rest) rest x
    refine ⟨c, ?_, ?_⟩
    · simpa [getMostCommonResponse] using hc
    · intro y hy
      rcases List.mem_cons.mp hy with rfl | hy'
      · exact hxc
      · exact hall y hy'

theorem assocInsert_ne_nil {κ β : Type} [DecidableEq κ] (k : κ) (v : β)
    (l : List (κ × β)) : assocInsert k v l ≠ [] := by
  cases l with
  | nil => simp [assocInsert]
  | cons kv rest =>
    simp only [assocInsert]
    split <;> simp

/-- `2 (N - f) > N` for `f = (N - 1) / 3`: two different values cannot both
reach the threshold among at most `N` responses. -/
theorem threshold_majority (N : Nat) (hN : 0 < N) : N < 2 * (N - maxEvil N) := by
  unfold maxEvil
  have h1 : (N - 1) / 3 * 3 ≤ N - 1 := Nat.div_mul_le_self _ _
  omega

/-- Success step of `ThresholdConsensus::process`: as soon as some value `v`
reaches `threshold` copies among the recorded responses, the step is
`Success v` (with at most `N` responses the threshold value is unique, so the
most common response is `v` itself). -/
theorem thresholdConsensus_success_step {R : Type} [DecidableEq R]
    (N : Nat) (st : ThresholdConsensus R) (p : PeerId) (r v : R)
    (hp : p ∉ st.retry) (hth : st.threshold = N - maxEvil N) (hN : 0 < N)
    (hlen : (assocInsert p r st.responses).length ≤ N)
    (hcount : st.threshold
      ≤ countVal v ((assocInsert p r st.responses).map Prod.snd)) :
    st.process p (.ok r)
      = some (.success v,
          { st with responses := assocInsert p r st.responses,
                    retry := st.retry ++ [p] }) := by
  have hmaj : N < 2 * (N - maxEvil N) := threshold_majority N hN
  have hthpos : 0 < st.threshold := by rw [hth]; omega
  have hne : (assocInsert p r st.responses).map Prod.snd ≠ [] := by
    simpa using assocInsert_ne_nil p r st.responses
  obtain ⟨mc, hmc, hall⟩ := getMostCommonResponse_spec hne
  have hv : v ∈ (assocInsert p r st.responses).map Prod.snd :=
    countVal_pos_mem (lt_of_lt_of_le hthpos hcount)
  have hcv : st.threshold
      ≤ countVal mc ((assocInsert p r st.responses).map Prod.snd) :=
    hcount.trans (hall v hv)
  have heq : mc = v := by
    by_contra hne'
    have hpair := countVal_pair_le hne'
      ((assocInsert p r st.responses).map Prod.snd)
    have hlen' : ((assocInsert p r st.responses).map Prod.snd).length
        = (assocInsert p r st.responses).length := List.length_map _ _
    rw [hth] at hcv hcount
    omega
  subst heq
  simp only [ThresholdConsensus.process, if_neg hp, hmc]
  rw [if_pos hcv]

/-- Retry step of `ThresholdConsensus::process`: when the peer completes a
full retry set without any value reaching the threshold, the step is `Retry`
of exactly the set of peers that answered since the last drain, and that set
is cleared. -/
theorem thresholdConsensus_retry_step {R : Type} [DecidableEq R]
    (st : ThresholdConsensus R) (p : PeerId) (r : R)
    (hp : p ∉ st.retry)
    (hlen : (st.retry ++ [p]).length = st.threshold)
    (hlow : ∀ w, countVal w ((assocInsert p r st.responses).map Prod.snd)
      < st.threshold) :
    st.process p (.ok r)
      = some (.retry (st.retry ++ [p]),
          { st with responses := assocInsert p r st.responses, retry := [] }) := by
  have hne : (assocInsert p r st.responses).map Prod.snd ≠ [] := by
    simpa using assocInsert_ne_nil p r st.responses
  obtain ⟨mc, hmc, hall⟩ := getMostCommonResponse_spec hne
  simp only [ThresholdConsensus.process, if_neg hp, hmc]
  rw [if_neg (not_le.mpr (hlow mc)), if_pos hlen]

/-- Trace lemma for `ThresholdConsensus`: under distinct peers and an error
budget below `f + 1`, the run never panics and never fails, and if the
pending `Ok v` responses can still lift `v` to the threshold, some step is a
`Success`. -/
theorem tc_run_spec {R : Type} [DecidableEq R] (v : R) :
    ∀ (events : List (PeerId × PeerResult R)) (st : ThresholdConsensus R),
    (events.map Prod.fst).Nodup →
    (∀ pe ∈ events, pe.1 ∉ st.retry) →
    (∀ pe ∈ events, pe.1 ∉ st.responses.map Prod.fst) →
    (∀ pe ∈ events, pe.1 ∉ st.errorStrategy.errors.map Prod.fst) →
    st.errorStrategy.errors.length
        + events.countP (fun pe => isErrResult pe.2)
      < st.errorStrategy.threshold →
    ∃ steps stF,
      runStrategy (fun s p r => ThresholdConsensus.process s p r) st events
        = some (steps, stF)
      ∧ (∀ q ∈ steps, QueryStep.isFailure q = false)
      ∧ (st.threshold ≤ countVal v (st.responses.map Prod.snd)
            + events.countP (fun pe => isOkOf v pe.2) →
        countVal v (st.responses.map Prod.snd) < st.threshold →
        ∃ q ∈ steps, QueryStep.isSuccess q = true) := by
  intro events
  induction events with
  | nil =>
    intro st _ _ _ _ _
    refine ⟨[], st, rfl, by simp, ?_⟩
    intro hsum hlow
    exfalso
    simp only [List.countP_nil, Nat.add_zero] at hsum
    omega
  | cons pe rest ih =>
    intro st hnodup hretry hresp herr hbudget
    obtain ⟨p, res⟩ := pe
    have hnodup' : p ∉ rest.map Prod.fst ∧ (rest.map Prod.fst).Nodup := by
      simpa using hnodup
    have hpne : ∀ pe ∈ rest, pe.1 ≠ p := by
      intro pe hpe hp
      exact hnodup'.1 (hp ▸ List.mem_map_of_mem Prod.fst hpe)
    cases res with
    | error e =>
      have hpfresh : p ∉ st.errorStrategy.errors.map Prod.fst :=
        herr (p, .error e) (List.mem_cons_self _ _)
      have hcnt : ((p, (Except.error e : PeerResult R)) :: rest).countP
            (fun pe => isErrResult pe.2)
          = rest.countP (fun pe => isErrResult pe.2) + 1 := by
        simp [List.countP_cons, isErrResult]
      rw [hcnt] at hbudget
      have herrlen : ¬ (st.errorStrategy.errors ++ [(p, e)]).length
          = st.errorStrategy.threshold := by
        simp only [List.length_append, List.length_singleton]
        omega
      have hstep : ThresholdConsensus.process st p (.error e)
          = some (.cont, { st with errorStrategy :=
              ⟨st.errorStrategy.errors ++ [(p, e)],
                st.errorStrategy.threshold⟩ }) := by
        simp only [ThresholdConsensus.process, ErrorStrategy.process,
          if_neg hpfresh, if_neg herrlen, Option.map_some]
        rfl
      obtain ⟨steps', stF, hrun', hnof', hsucc'⟩ := ih
        { st with errorStrategy :=
            ⟨st.errorStrategy.errors ++ [(p, e)], st.errorStrategy.threshold⟩ }
        hnodup'.2
        (fun pe hpe => hretry pe (List.mem_cons_of_mem _ hpe))
        (fun pe hpe => hresp pe (List.mem_cons_of_mem _ hpe))
        (fun pe hpe => by
          simp only [List.map_append, List.mem_append, List.map_cons,
            List.map_nil, List.mem_singleton]
          push_neg
          exact ⟨herr pe (List.mem_cons_of_mem _ hpe), hpne pe hpe⟩)
        (by simp only [List.length_append, List.length_singleton]; omega)
      refine ⟨.cont :: steps', stF, ?_, ?_, ?_⟩
      · simp [runStrategy, hstep, hrun']
      · intro q hq
        rcases List.mem_cons.mp hq with rfl | hq'
        · rfl
        · exact hnof' q hq'
      · intro hsum hlow
        have hok : ((p, (Except.error e : PeerResult R)) :: rest).countP
              (fun pe => isOkOf v pe.2)
            = rest.countP (fun pe => isOkOf v pe.2) := by
          simp [List.countP_cons, isOkOf]
        rw [hok] at hsum
        obtain ⟨q, hq, hqs⟩ := hsucc' hsum hlow
        exact ⟨q, List.mem_cons_of_mem _ hq, hqs⟩
    | ok r =>
      have hpretry : p ∉ st.retry := hretry (p, .ok r) (List.mem_cons_self _ _)
      have hpresp : p ∉ st.responses.map Prod.fst :=
        hresp (p, .ok r) (List.mem_cons_self _ _)
      have hins : assocInsert p r st.responses = st.responses ++ [(p, r)] :=
        assocInsert_of_not_mem hpresp r
      have hne : (assocInsert p r st.responses).map Prod.snd ≠ [] := by
        simpa using assocInsert_ne_nil p r st.responses
      obtain ⟨mc, hmc, hall⟩ := getMostCommonResponse_spec hne
      have hokcnt : ((p, (Except.ok r : PeerResult R)) :: rest).countP
            (fun pe => isOkOf v pe.2)
          = rest.countP (fun pe => isOkOf v pe.2)
            + (if r = v then 1 else 0) := by
        simp [List.countP_cons, isOkOf]
      have herrcnt : ((p, (Except.ok r : PeerResult R)) :: rest).countP
            (fun pe => isErrResult pe.2)
          = rest.countP (fun pe => isErrResult pe.2) := by
        simp [List.countP_cons, isErrResult]
      rw [herrcnt] at hbudget
      have hcv : countVal v ((assocInsert p r st.responses).map Prod.snd)
          = countVal v (st.responses.map Prod.snd)
            + (if r = v then 1 else 0) := by
        rw [hins, List.map_append, countVal_append]
        congr 1
        simp [countVal, List.countP_cons]
      have hrespA : ∀ pe ∈ rest,
          pe.1 ∉ (assocInsert p r st.responses).map Prod.fst := by
        intro pe hpe
        rw [hins]
        simp only [List.map_append, List.mem_append, List.map_cons,
          List.map_nil, List.mem_singleton]
        push_neg
        exact ⟨hresp pe (List.mem_cons_of_mem _ hpe), hpne pe hpe⟩
      have hcommon : ∀ (retry' : List PeerId), (∀ pe ∈ rest, pe.1 ∉ retry') →
          ∃ steps' stF,
            runStrategy (fun s p' r' => ThresholdConsensus.process s p' r')
              { st with responses := assocInsert p r st.responses,
                        retry := retry' } rest
              = some (steps', stF)
            ∧ (∀ q ∈ steps', QueryStep.isFailure q = false)
            ∧ (st.threshold
                  ≤ countVal v ((assocInsert p r st.responses).map Prod.snd)
                    + rest.countP (fun pe => isOkOf v pe.2) →
              countVal v ((assocInsert p r st.responses).map Prod.snd)
                  < st.threshold →
              ∃ q ∈ steps', QueryStep.isSuccess q = true) :=
        fun retry' hr' => ih
          { st with responses := assocInsert p r st.responses, retry := retry' }
          hnodup'.2 hr' hrespA
          (fun pe hpe => herr pe (List.mem_cons_of_mem _ hpe))
          hbudget
      by_cases hsucc : st.threshold
          ≤ countVal mc ((assocInsert p r st.responses).map Prod.snd)
      · have hstep : ThresholdConsensus.process st p (.ok r)
            = some (.success mc,
                { st with responses := assocInsert p r st.responses,
                          retry := st.retry ++ [p] }) := by
          simp only [ThresholdConsensus.process, if_neg hpretry, hmc]
          rw [if_pos hsucc]
        have hrA : ∀ pe ∈ rest, pe.1 ∉ st.retry ++ [p] := by
          intro pe hpe
          simp only [List.mem_append, List.mem_singleton]
          push_neg
          exact ⟨hretry pe (List.mem_cons_of_mem _ hpe), hpne pe hpe⟩
        obtain ⟨steps', stF, hrun', hnof', _⟩ := hcommon (st.retry ++ [p]) hrA
        refine ⟨.success mc :: steps', stF, ?_, ?_, ?_⟩
        · simp [runStrategy, hstep, hrun']
        · intro q hq
          rcases List.mem_cons.mp hq with rfl | hq'
          · rfl
          · exact hnof' q hq'
        · intro _ _
          exact ⟨.success mc, List.mem_cons_self _ _, rfl⟩
      · have hthpos : 0 < st.threshold :=
          Nat.pos_of_ne_zero (fun h0 => hsucc (h0 ▸ Nat.zero_le _))
        have hlowall : countVal v ((assocInsert p r st.responses).map Prod.snd)
            < st.threshold := by
          by_cases hv : v ∈ (assocInsert p r st.responses).map Prod.snd
          · exact lt_of_le_of_lt (hall v hv) (Nat.not_le.mp hsucc)
          · have : countVal v ((assocInsert p r st.responses).map Prod.snd)
                = 0 := by
              apply List.countP_eq_zero.mpr
              intro x hx
              simp only [decide_eq_true_eq]
              exact fun hxv => hv (hxv ▸ hx)
            omega
        by_cases hret : (st.retry ++ [p]).length = st.threshold
        · have hstep : ThresholdConsensus.process st p (.ok r)
              = some (.retry (st.retry ++ [p]),
                  { st with responses := assocInsert p r st.responses,
                            retry := [] }) := by
            simp only [ThresholdConsensus.process, if_neg hpretry, hmc]
            rw [if_neg hsucc, if_pos hret]
          obtain ⟨steps', stF, hrun', hnof', hsucc'⟩ :=
            hcommon [] (by simp)
          refine ⟨.retry (st.retry ++ [p]) :: steps', stF, ?_, ?_, ?_⟩
          · simp [runStrategy, hstep, hrun']
          · intro q hq
            rcases List.mem_cons.mp hq with rfl | hq'
            · rfl
            · exact hnof' q hq'
          · intro hsum hlow
            rw [hokcnt] at hsum
            obtain ⟨q, hq, hqs⟩ := hsucc' (by rw [hcv]; omega) hlowall
            exact ⟨q, List.mem_cons_of_mem _ hq, hqs⟩
        · have hstep : ThresholdConsensus.process st p (.ok r)
              = some (.cont,
                  { st with responses := assocInsert p r st.responses,
                            retry := st.retry ++ [p] }) := by
            simp only [ThresholdConsensus.process, if_neg hpretry, hmc]
            rw [if_neg hsucc, if_neg hret]
          have hrA : ∀ pe ∈ rest, pe.1 ∉ st.retry ++ [p] := by
            intro pe hpe
            simp only [List.mem_append, List.mem_singleton]
            push_neg
            exact ⟨hretry pe (List.mem_cons_of_mem _ hpe), hpne pe hpe⟩
          obtain ⟨steps', stF, hrun', hnof', hsucc'⟩ :=
            hcommon (st.retry ++ [p]) hrA
          refine ⟨.cont :: steps', stF, ?_, ?_, ?_⟩
          · simp [runStrategy, hstep, hrun']
          · intro q hq
            rcases List.mem_cons.mp hq with rfl | hq'
            · rfl
            · exact hnof' q hq'
          · intro hsum hlow
            rw [hokcnt] at hsum
            obtain ⟨q, hq, hqs⟩ := hsucc' (by rw [hcv]; omega) hlowall
            exact ⟨q, List.mem_cons_of_mem _ hq, hqs⟩

/-- C4.  `ThresholdConsensus` contract: (i) as soon as at least
`threshold = N - (N-1)/3` recorded responses equal one value `v`, `process`
returns `Success v`; (ii) when exactly `threshold` peers have answered `Ok`
since the last drain without any value reaching `threshold` copies, it
returns `Retry` of exactly the answering peers and clears that set;
(iii) from a fresh strategy, at least `N - f` identical `Ok v` responses
from distinct peers interleaved with fewer than `f + 1` errors reach a
`Success` step and never a `Failure`. -/
theorem thresholdConsensus_contract {R : Type} [DecidableEq R] :
    ∀ (N : Nat) (st : ThresholdConsensus R) (p : PeerId) (r v : R)
      (events : List (PeerId × PeerResult R)),
    (p ∉ st.retry → st.threshold = N - maxEvil N → 0 < N →
      (assocInsert p r st.responses).length ≤ N →
      st.threshold ≤ countVal v ((assocInsert p r st.responses).map Prod.snd) →
      st.process p (.ok r)
        = some (.success v,
            { st with responses := assocInsert p r st.responses,
                      retry := st.retry ++ [p] }))
    ∧ (p ∉ st.retry → (st.retry ++ [p]).length = st.threshold →
      (∀ w, countVal w ((assocInsert p r st.responses).map Prod.snd)
        < st.threshold) →
      st.process p (.ok r)
        = some (.retry (st.retry ++ [p]),
            { st with responses := assocInsert p r st.responses,
                      retry := [] }))
    ∧ ((events.map Prod.fst).Nodup → 0 < N →
      N - maxEvil N ≤ events.countP (fun pe => isOkOf v pe.2) →
      events.countP (fun pe => isErrResult pe.2) < maxEvil N + 1 →
      ∃ steps stF,
        runStrategy (fun s p' r' => ThresholdConsensus.process s p' r')
          (ThresholdConsensus.new R N) events = some (steps, stF)
        ∧ (∀ q ∈ steps, QueryStep.isFailure q = false)
        ∧ ∃ q ∈ steps, QueryStep.isSuccess q = true) := by
  intro N st p r v events
  refine ⟨fun h1 h2 h3 h4 h5 =>
      thresholdConsensus_success_step N st p r v h1 h2 h3 h4 h5,
    fun h1 h2 h3 => thresholdConsensus_retry_step st p r h1 h2 h3, ?_⟩
  intro hnodup hN hok herr
  obtain ⟨steps, stF, hrun, hnof, hsucc⟩ := tc_run_spec v events
    (ThresholdConsensus.new R N) hnodup
    (by simp [ThresholdConsensus.new])
    (by simp [ThresholdConsensus.new])
    (by simp [ThresholdConsensus.new, ErrorStrategy.new])
    (by simpa [ThresholdConsensus.new, ErrorStrategy.new] using herr)
  refine ⟨steps, stF, hrun, hnof, ?_⟩
  apply hsucc
  · simpa [ThresholdConsensus.new, countVal] using hok
  · have := threshold_majority N hN
    simp only [ThresholdConsensus.new, List.map_nil]
    simp only [countVal, List.countP_nil]
    omega

/-! ## Version discovery (C5, C6) -/

theorem bestMajorStep_no_update (cc : CoreConsensusVersion)
    (peers : List (PeerId × SupportedCoreApiVersions)) :
    ∀ (l : List ApiVersion) (b : Option ApiVersion × Nat),
    (∀ x ∈ l, peersCompatibleNum cc peers x ≤ b.2) →
    l.foldl (bestMajorStep cc peers) b = b := by
  intro l
  induction l with
  | nil => intro b _; rfl
  | cons x rest ih =>
    intro b hle
    have hx : peersCompatibleNum cc peers x ≤ b.2 :=
      hle x (List.mem_cons_self _ _)
    simp only [List.foldl_cons, bestMajorStep, if_neg (Nat.not_lt.mpr hx)]
    exact ih b (fun y hy => hle y (List.mem_cons_of_mem _ hy))

theorem bestMajorStep_le_final (cc : CoreConsensusVersion)
    (peers : List (PeerId × SupportedCoreApiVersions)) :
    ∀ (l : List ApiVersion) (b : Option ApiVersion × Nat),
    (∀ x ∈ l, peersCompatibleNum cc peers x
      ≤ (l.foldl (bestMajorStep cc peers) b).2)
    ∧ b.2 ≤ (l.foldl (bestMajorStep cc peers) b).2 := by
  intro l
  induction l with
  | nil => intro b; exact ⟨by simp, le_refl _⟩
  | cons x rest ih =>
    intro b
    simp only [List.foldl_cons]
    obtain ⟨hall, hb⟩ := ih (bestMajorStep cc peers b x)
    have hbx : b.2 ≤ (bestMajorStep cc peers b x).2 := by
      unfold bestMajorStep
      split
      · next h => exact Nat.le_of_lt h
      · exact le_refl _
    have hxx : peersCompatibleNum cc peers x ≤ (bestMajorStep cc peers b x).2 := by
      unfold bestMajorStep
      split
      · exact le_refl _
      · next h => exact Nat.not_lt.mp h
    refine ⟨?_, hbx.trans hb⟩
    intro y hy
    rcases List.mem_cons.mp hy with rfl | hy'
    · exact hxx.trans hb
    · exact hall y hy'

theorem bestMajorStep_snd_attained (cc : CoreConsensusVersion)
    (peers : List (PeerId × SupportedCoreApiVersions)) :
    ∀ (l : List ApiVersion) (b : Option ApiVersion × Nat),
    (l.foldl (bestMajorStep cc peers) b).2 = b.2
    ∨ ∃ x ∈ l, peersCompatibleNum cc peers x
        = (l.foldl (bestMajorStep cc peers) b).2 := by
  intro l
  induction l with
  | nil => intro b; left; rfl
  | cons x rest ih =>
    intro b
    simp only [List.foldl_cons]
    by_cases hup : b.2 < peersCompatibleNum cc peers x
    · have hbx : bestMajorStep cc peers b x
          = (some x, peersCompatibleNum cc peers x) := by
        simp [bestMajorStep, hup]
      rcases ih (bestMajorStep cc peers b x) with heq | ⟨y, hy, hcy⟩
      · right
        exact ⟨x, List.mem_cons_self _ _, by rw [heq, hbx]⟩
      · right
        exact ⟨y, List.mem_cons_of_mem _ hy, hcy⟩
    · have hbx : bestMajorStep cc peers b x = b := by
        simp [bestMajorStep, hup]
      rw [hbx]
      rcases ih b with heq | ⟨y, hy, hcy⟩
      · left; exact heq
      · right; exact ⟨y, List.mem_cons_of_mem _ hy, hcy⟩

theorem exists_first_max (cc : CoreConsensusVersion)
    (peers : List (PeerId × SupportedCoreApiVersions)) :
    ∀ (l : List ApiVersion) (M : Nat),
    (∀ x ∈ l, peersCompatibleNum cc peers x ≤ M) →
    (∃ x ∈ l, peersCompatibleNum cc peers x = M) →
    ∃ pre cv suf, l = pre ++ cv :: suf
      ∧ peersCompatibleNum cc peers cv = M
      ∧ ∀ x ∈ pre, peersCompatibleNum cc peers x < M := by
  intro l
  induction l with
  | nil =>
    intro M _ hex
    obtain ⟨x, hx, _⟩ := hex
    simp at hx
  | cons x rest ih =>
    intro M hle hex
    by_cases hx : peersCompatibleNum cc peers x = M
    · exact ⟨[], x, rest, rfl, hx, by simp⟩
    · have hxlt : peersCompatibleNum cc peers x < M :=
        lt_of_le_of_ne (hle x (List.mem_cons_self _ _)) hx
      obtain ⟨y, hy, hcy⟩ := hex
      have hyrest : y ∈ rest := by
        rcases List.mem_cons.mp hy with rfl | h
        · exact absurd hcy hx
        · exact h
      obtain ⟨pre, cv, suf, hsplit, hcv, hpre⟩ := ih M
        (fun z hz => hle z (List.mem_cons_of_mem _ hz)) ⟨y, hyrest, hcy⟩
      refine ⟨x :: pre, cv, suf, by rw [hsplit]; rfl, hcv, ?_⟩
      intro z hz
      rcases List.mem_cons.mp hz with rfl | hz'
      · exact hxlt
      · exact hpre z hz'

theorem bestMajorStep_fold_split (cc : CoreConsensusVersion)
    (peers : List (PeerId × SupportedCoreApiVersions))
    (pre : List ApiVersion) (cv : ApiVersion) (suf : List ApiVersion)
    (hpos : 0 < peersCompatibleNum cc peers cv)
    (hpre : ∀ x ∈ pre, peersCompatibleNum cc peers x
      < peersCompatibleNum cc peers cv)
    (hsuf : ∀ x ∈ suf, peersCompatibleNum cc peers x
      ≤ peersCompatibleNum cc peers cv) :
    (pre ++ cv :: suf).foldl (bestMajorStep cc peers) (none, 0)
      = (some cv, peersCompatibleNum cc peers cv) := by
  rw [List.foldl_append]
  have hb1 : ((pre.foldl (bestMajorStep cc peers) (none, 0)).2
      < peersCompatibleNum cc peers cv) := by
    rcases bestMajorStep_snd_attained cc peers pre (none, 0)
      with heq | ⟨y, hy, hcy⟩
    · rw [heq]; exact hpos
    · rw [← hcy]; exact hpre y hy
  simp only [List.foldl_cons]
  have hstep : bestMajorStep cc peers
      (pre.foldl (bestMajorStep cc peers) (none, 0)) cv
      = (some cv, peersCompatibleNum cc peers cv) := by
    simp [bestMajorStep, hb1]
  rw [hstep]
  exact bestMajorStep_no_update cc peers suf _ (by simpa using hsuf)

/-- Full characterization of the best-major fold: either every client entry
has zero compatible peers and nothing is selected, or the selected entry is
the first one attaining the maximal (positive) compatible-peer count. -/
theorem bestMajor_characterization (cc : CoreConsensusVersion)
    (peers : List (PeerId × SupportedCoreApiVersions)) (l : List ApiVersion) :
    ((∀ x ∈ l, peersCompatibleNum cc peers x = 0)
      ∧ l.foldl (bestMajorStep cc peers) (none, 0) = (none, 0))
    ∨ ∃ pre cv suf, l = pre ++ cv :: suf
        ∧ l.foldl (bestMajorStep cc peers) (none, 0)
            = (some cv, peersCompatibleNum cc peers cv)
        ∧ 0 < peersCompatibleNum cc peers cv
        ∧ (∀ x ∈ pre, peersCompatibleNum cc peers x
            < peersCompatibleNum cc peers cv)
        ∧ (∀ x ∈ l, peersCompatibleNum cc peers x
            ≤ peersCompatibleNum cc peers cv) := by
  obtain ⟨hall, -⟩ := bestMajorStep_le_final cc peers l (none, 0)
  rcases Nat.eq_zero_or_pos (l.foldl (bestMajorStep cc peers) (none, 0)).2
    with hM0 | hMpos
  · left
    have hz : ∀ x ∈ l, peersCompatibleNum cc peers x = 0 :=
      fun x hx => Nat.le_zero.mp (hM0 ▸ hall x hx)
    refine ⟨hz, ?_⟩
    exact bestMajorStep_no_update cc peers l (none, 0)
      (fun x hx => le_of_eq (hz x hx))
  · right
    rcases bestMajorStep_snd_attained cc peers l (none, 0)
      with heq | ⟨y, hy, hcy⟩
    · rw [heq] at hMpos
      exact absurd hMpos (by simp)
    · obtain ⟨pre, cv, suf, hsplit, hcv, hpre⟩ :=
        exists_first_max cc peers l _ hall ⟨y, hy, hcy⟩
      have hcvpos : 0 < peersCompatibleNum cc peers cv := hcv ▸ hMpos
      have hsufmem : ∀ x ∈ suf, x ∈ l := by
        intro x hx
        rw [hsplit]
        exact List.mem_append_right _ (List.mem_cons_of_mem _ hx)
      have hfold : (pre ++ cv :: suf).foldl (bestMajorStep cc peers) (none, 0)
          = (some cv, peersCompatibleNum cc peers cv) :=
        bestMajorStep_fold_split cc peers pre cv suf hcvpos
          (fun x hx => hcv ▸ hpre x hx)
          (fun x hx => hcv ▸ hall x (hsufmem x hx))
      exact ⟨pre, cv, suf, hsplit, by rw [hsplit]; exact hfold, hcvpos,
        fun x hx => hcv ▸ hpre x hx, fun x hx => hcv ▸ hall x hx⟩

/-- A client entry has a positive compatible-peer count exactly when the
list of qualifying peer minors for it is nonempty. -/
theorem qualifyingMinors_ne_nil (cc : CoreConsensusVersion)
    (peers : List (PeerId × SupportedCoreApiVersions)) (cv : ApiVersion) :
    0 < peersCompatibleNum cc peers cv ↔ qualifyingMinors cc peers cv ≠ [] := by
  constructor
  · intro hpos hnil
    obtain ⟨sv, hsv, hp⟩ := List.countP_pos_iff.mp hpos
    unfold supportsEntry at hp
    cases hg : sv.getMinorApiVersion cc cv.major with
    | none => rw [hg] at hp; simp at hp
    | some pm =>
      rw [hg] at hp
      simp only [decide_eq_true_eq] at hp
      have hmem : pm ∈ qualifyingMinors cc peers cv := by
        unfold qualifyingMinors
        rw [List.mem_filter]
        exact ⟨List.mem_filterMap.mpr ⟨sv, hsv, hg⟩, by simpa using hp⟩
      rw [hnil] at hmem
      simp at hmem
  · intro hne
    obtain ⟨pm, hpm⟩ := List.exists_mem_of_ne_nil _ hne
    unfold qualifyingMinors at hpm
    rw [List.mem_filter] at hpm
    obtain ⟨sv, hsv, hg⟩ := List.mem_filterMap.mp hpm.1
    apply List.countP_pos_iff.mpr
    refine ⟨sv, hsv, ?_⟩
    unfold supportsEntry
    rw [hg]
    simpa using hpm.2

/-- C5.  `discover_common_core_api_version`: it returns `none` exactly when
no peer supports any client major at a sufficient minor; otherwise it selects
the first client entry with the (positive) maximal count of compatible peers
(strictly beating every earlier entry, tie-break by client iteration order),
returns that entry's major, and a minor equal to the minimum supported minor
over the qualifying peers, which is never below the client's minor. -/
theorem discover_core_api_version_spec :
    ∀ (client : SupportedCoreApiVersions)
      (peers : List (PeerId × SupportedCoreApiVersions)),
    (discoverCommonCoreApiVersion client peers = none
      ↔ ∀ cv ∈ client.api,
          peersCompatibleNum client.coreConsensus peers cv = 0)
    ∧ (∀ v, discoverCommonCoreApiVersion client peers = some v →
        ∃ pre cv suf, client.api = pre ++ cv :: suf
          ∧ 0 < peersCompatibleNum client.coreConsensus peers cv
          ∧ (∀ x ∈ pre, peersCompatibleNum client.coreConsensus peers x
              < peersCompatibleNum client.coreConsensus peers cv)
          ∧ (∀ x ∈ client.api,
              peersCompatibleNum client.coreConsensus peers x
                ≤ peersCompatibleNum client.coreConsensus peers cv)
          ∧ v.major = cv.major
          ∧ minList (qualifyingMinors client.coreConsensus peers cv)
              = some v.minor
          ∧ cv.minor ≤ v.minor) := by
  intro client peers
  rcases bestMajor_characterization client.coreConsensus peers client.api with
    ⟨hz, hfold⟩ | ⟨pre, cv, suf, hsplit, hfold, hpos, hpre, hallb⟩
  · constructor
    · exact ⟨fun _ => hz,
        fun _ => by unfold discoverCommonCoreApiVersion; rw [hfold]; rfl⟩
    · intro v hv
      unfold discoverCommonCoreApiVersion at hv
      rw [hfold] at hv
      simp at hv
  · have hne : qualifyingMinors client.coreConsensus peers cv ≠ [] :=
      (qualifyingMinors_ne_nil _ _ _).mp hpos
    obtain ⟨mn, hmn⟩ := Option.isSome_iff_exists.mp (minList_isSome hne)
    have hdisc : discoverCommonCoreApiVersion client peers
        = some ⟨cv.major, mn⟩ := by
      unfold discoverCommonCoreApiVersion
      rw [hfold]
      simp [hmn]
    constructor
    · constructor
      · intro h
        rw [hdisc] at h
        simp at h
      · intro hz
        have hcvmem : cv ∈ client.api := by
          rw [hsplit]
          exact List.mem_append_right _ (List.mem_cons_self _ _)
        have := hz cv hcvmem
        omega
    · intro v hv
      rw [hdisc] at hv
      have hveq : v = ⟨cv.major, mn⟩ := by
        simpa using hv.symm
      subst hveq
      refine ⟨pre, cv, suf, hsplit, hpos, hpre, hallb, rfl, by simpa using hmn, ?_⟩
      have hmemq := minList_mem hmn
      unfold qualifyingMinors at hmemq
      rw [List.mem_filter] at hmemq
      simpa using hmemq.2

/-- Client and peer fixtures for the version discovery claims: the client
supports `(2,3)` and `(3,1)`, and the single peer supports both. -/
def c6Client : SupportedCoreApiVersions := ⟨⟨0, 0⟩, [⟨2, 3⟩, ⟨3, 1⟩]⟩

/-- See `c6Client`. -/
def c6Peers : List (PeerId × SupportedCoreApiVersions) :=
  [(0, ⟨⟨0, 0⟩, [⟨2, 3⟩, ⟨3, 1⟩]⟩)]

/-- Counterexample to C6 as stated: the client set contains `(3, 1)`, the
peer map is nonempty and every peer supports major 3 with minor ≥ 1, yet the
discovered version is `(2, 3)` — its major is not 3, because the earlier
client entry `(2, 3)` is supported by just as many peers and wins the
first-iterated tie-break. -/
theorem version_discovery_monotonicity_counterexample :
    (⟨3, 1⟩ : ApiVersion) ∈ c6Client.api
    ∧ c6Peers ≠ []
    ∧ (∀ sv ∈ c6Peers.map Prod.snd,
        supportsEntry c6Client.coreConsensus ⟨3, 1⟩ sv = true)
    ∧ discoverCommonCoreApiVersion c6Client c6Peers = some ⟨2, 3⟩
    ∧ (2 : Nat) ≠ 3 :=
  ⟨by decide, by decide, by decide, by decide, by decide⟩

/-- C6 (amended).  If the client version set contains `(M, m)`, the peer map
is nonempty and every peer supports major `M` at minor ≥ `m`, then discovery
succeeds, and the discovered version's major is the major of the *first*
client entry (in client iteration order) that every peer supports at
sufficient minor — `(M, m)` is such an entry, so in particular when it is the
first one the major is exactly `M` — with minor at least that entry's client
minor. -/
theorem version_discovery_monotonicity_amended
    (client : SupportedCoreApiVersions)
    (peers : List (PeerId × SupportedCoreApiVersions)) (M m : Nat)
    (hne : peers ≠ [])
    (hmem : (⟨M, m⟩ : ApiVersion) ∈ client.api)
    (hsupp : ∀ sv ∈ peers.map Prod.snd,
      supportsEntry client.coreConsensus ⟨M, m⟩ sv = true) :
    ∃ pre cv suf v, client.api = pre ++ cv :: suf
      ∧ (∀ sv ∈ peers.map Prod.snd,
          supportsEntry client.coreConsensus cv sv = true)
      ∧ (∀ x ∈ pre, ¬ ∀ sv ∈ peers.map Prod.snd,
          supportsEntry client.coreConsensus x sv = true)
      ∧ discoverCommonCoreApiVersion client peers = some v
      ∧ v.major = cv.major ∧ cv.minor ≤ v.minor := by
  have hcnt : peersCompatibleNum client.coreConsensus peers ⟨M, m⟩
      = (peers.map Prod.snd).length :=
    List.countP_eq_length.mpr hsupp
  have hbound : ∀ x ∈ client.api,
      peersCompatibleNum client.coreConsensus peers x
        ≤ (peers.map Prod.snd).length :=
    fun x _ => List.countP_le_length _
  obtain ⟨pre, cv, suf, hsplit, hcv, hpre⟩ :=
    exists_first_max client.coreConsensus peers client.api
      ((peers.map Prod.snd).length) hbound ⟨⟨M, m⟩, hmem, hcnt⟩
  have hLpos : 0 < (peers.map Prod.snd).length := by
    rw [List.length_map]
    exact List.length_pos.mpr hne
  have hcvpos : 0 < peersCompatibleNum client.coreConsensus peers cv :=
    hcv ▸ hLpos
  have hsufmem : ∀ x ∈ suf, x ∈ client.api := by
    intro x hx
    rw [hsplit]
    exact List.mem_append_right _ (List.mem_cons_of_mem _ hx)
  have hfold := bestMajorStep_fold_split client.coreConsensus peers pre cv suf
    hcvpos (fun x hx => hcv ▸ hpre x hx)
    (fun x hx => hcv ▸ hbound x (hsufmem x hx))
  have hqne : qualifyingMinors client.coreConsensus peers cv ≠ [] :=
    (qualifyingMinors_ne_nil _ _ _).mp hcvpos
  obtain ⟨mn, hmn⟩ := Option.isSome_iff_exists.mp (minList_isSome hqne)
  have hdisc : discoverCommonCoreApiVersion client peers
      = some ⟨cv.major, mn⟩ := by
    unfold discoverCommonCoreApiVersion
    rw [hsplit, hfold]
    simp [hmn]
  refine ⟨pre, cv, suf, ⟨cv.major, mn⟩, hsplit, ?_, ?_, hdisc, rfl, ?_⟩
  · exact List.countP_eq_length.mp hcv
  · intro x hx hall
    have hx' := hpre x hx
    have : peersCompatibleNum client.coreConsensus peers x
        = (peers.map Prod.snd).length := List.countP_eq_length.mpr hall
    omega
  · have hmemq := minList_mem hmn
    unfold qualifyingMinors at hmemq
    rw [List.mem_filter] at hmemq
    simpa using hmemq.2

/-- Witness for C6 (amended) at the `c6Client`/`c6Peers` fixture. -/
theorem version_discovery_monotonicity_amended_witness :
    ∃ pre cv suf v, c6Client.api = pre ++ cv :: suf
      ∧ (∀ sv ∈ c6Peers.map Prod.snd,
          supportsEntry c6Client.coreConsensus cv sv = true)
      ∧ (∀ x ∈ pre, ¬ ∀ sv ∈ c6Peers.map Prod.snd,
          supportsEntry c6Client.coreConsensus x sv = true)
      ∧ discoverCommonCoreApiVersion c6Client c6Peers = some v
      ∧ v.major = cv.major ∧ cv.minor ≤ v.minor :=
  version_discovery_monotonicity_amended c6Client c6Peers 3 1
    (by decide) (by decide) (by decide)

end Fedimint